import Mathlib

/-!
# Verification of `folder_synchronizer.py`

A shallow embedding of the one-way folder synchronizer: the recursive tree
comparator `synchronize` and the driver `main` (modelled as `mainRun`),
together with proofs of the specification's testable properties.

File systems are modelled as finite trees (`FSObj`): a file carries its byte
content, a directory carries a list of named children.  Mutating the replica
is modelled by explicit state passing; fallible file-system operations return
`Except FSError`.  The MD5 digest used by the program for change detection is
embedded in full (RFC 1321), so that digest comparison in the model is exactly
the comparison the program performs.
-/

set_option maxHeartbeats 4000000

namespace FolderSync

/-! ## MD5 (`hashlib.md5`, RFC 1321)

`synchronize` compares files by the hex digest of their bytes.  We embed the
full MD5 algorithm over byte lists (`List Nat`, each byte taken mod 256). -/

/-- The 64 round constants `K[i] = floor(abs(sin(i+1)) * 2^32)` of MD5. -/
def md5K : List Nat :=
  [0xd76aa478, 0xe8c7b756, 0x242070db, 0xc1bdceee,
   0xf57c0faf, 0x4787c62a, 0xa8304613, 0xfd469501,
   0x698098d8, 0x8b44f7af, 0xffff5bb1, 0x895cd7be,
   0x6b901122, 0xfd987193, 0xa679438e, 0x49b40821,
   0xf61e2562, 0xc040b340, 0x265e5a51, 0xe9b6c7aa,
   0xd62f105d, 0x02441453, 0xd8a1e681, 0xe7d3fbc8,
   0x21e1cde6, 0xc33707d6, 0xf4d50d87, 0x455a14ed,
   0xa9e3e905, 0xfcefa3f8, 0x676f02d9, 0x8d2a4c8a,
   0xfffa3942, 0x8771f681, 0x6d9d6122, 0xfde5380c,
   0xa4beea44, 0x4bdecfa9, 0xf6bb4b60, 0xbebfbc70,
   0x289b7ec6, 0xeaa127fa, 0xd4ef3085, 0x04881d05,
   0xd9d4d039, 0xe6db99e5, 0x1fa27cf8, 0xc4ac5665,
   0xf4292244, 0x432aff97, 0xab9423a7, 0xfc93a039,
   0x655b59c3, 0x8f0ccc92, 0xffeff47d, 0x85845dd1,
   0x6fa87e4f, 0xfe2ce6e0, 0xa3014314, 0x4e0811a1,
   0xf7537e82, 0xbd3af235, 0x2ad7d2bb, 0xeb86d391]

/-- The 64 per-round left-rotation amounts of MD5. -/
def md5S : List Nat :=
  [7, 12, 17, 22, 7, 12, 17, 22, 7, 12, 17, 22, 7, 12, 17, 22,
   5, 9, 14, 20, 5, 9, 14, 20, 5, 9, 14, 20, 5, 9, 14, 20,
   4, 11, 16, 23, 4, 11, 16, 23, 4, 11, 16, 23, 4, 11, 16, 23,
   6, 10, 15, 21, 6, 10, 15, 21, 6, 10, 15, 21, 6, 10, 15, 21]

/-- Round function F (rounds 0–15). -/
def mdF (b c d : Nat) : Nat := (b &&& c) ||| ((b ^^^ 0xffffffff) &&& d)

/-- Round function G (rounds 16–31). -/
def mdG (b c d : Nat) : Nat := (b &&& d) ||| (c &&& (d ^^^ 0xffffffff))

/-- Round function H (rounds 32–47). -/
def mdH (b c d : Nat) : Nat := b ^^^ c ^^^ d

/-- Round function I (rounds 48–63). -/
def mdI (b c d : Nat) : Nat := c ^^^ (b ||| (d ^^^ 0xffffffff))

/-- Left rotation of a 32-bit word. -/
def rotl32 (x s : Nat) : Nat := ((x <<< s) ||| (x >>> (32 - s))) % 4294967296

/-- First `k` bytes of `n`, little-endian. -/
def toLE : Nat → Nat → List Nat
  | 0, _ => []
  | k + 1, n => (n % 256) :: toLE k (n / 256)

/-- MD5 padding: append `0x80`, zeros to 56 mod 64 bytes, then the bit length
as 8 little-endian bytes. -/
def padMessage (m : List Nat) : List Nat :=
  m ++ 128 :: (List.replicate ((119 - m.length % 64) % 64) 0 ++ toLE 8 (8 * m.length))

/-- The sixteen 32-bit little-endian words of a 64-byte chunk. -/
def chunkWords (chunk : List Nat) : List Nat :=
  (List.range 16).map fun j =>
    chunk.getD (4 * j) 0 % 256 + 256 * (chunk.getD (4 * j + 1) 0 % 256)
      + 65536 * (chunk.getD (4 * j + 2) 0 % 256)
      + 16777216 * (chunk.getD (4 * j + 3) 0 % 256)

/-- One MD5 round (`i` from 0 to 63) on the state `(a, b, c, d)`. -/
def md5Step (m : List Nat) (st : Nat × Nat × Nat × Nat) (i : Nat) : Nat × Nat × Nat × Nat :=
  match st with
  | (a, b, c, d) =>
    let fg : Nat × Nat :=
      if i < 16 then (mdF b c d, i)
      else if i < 32 then (mdG b c d, (5 * i + 1) % 16)
      else if i < 48 then (mdH b c d, (3 * i + 5) % 16)
      else (mdI b c d, (7 * i) % 16)
    let t := (a + fg.1 + md5K.getD i 0 + m.getD fg.2 0) % 4294967296
    (d, (b + rotl32 t (md5S.getD i 0)) % 4294967296, b, c)

/-- Process one 64-byte chunk: 64 rounds, then add the state back. -/
def md5Chunk (st : Nat × Nat × Nat × Nat) (chunk : List Nat) : Nat × Nat × Nat × Nat :=
  let m := chunkWords chunk
  match (List.range 64).foldl (md5Step m) st, st with
  | (a, b, c, d), (a0, b0, c0, d0) =>
    ((a0 + a) % 4294967296, (b0 + b) % 4294967296,
     (c0 + c) % 4294967296, (d0 + d) % 4294967296)

/-- Process the padded message 64 bytes at a time (`fuel` = number of chunks). -/
def md5Blocks : Nat → List Nat → Nat × Nat × Nat × Nat → Nat × Nat × Nat × Nat
  | 0, _, st => st
  | fuel + 1, bytes, st => md5Blocks fuel (bytes.drop 64) (md5Chunk st (bytes.take 64))

/-- The 16-byte MD5 digest of a byte list. -/
def md5Digest (msg : List Nat) : List Nat :=
  let padded := padMessage msg
  match md5Blocks (padded.length / 64) padded
      (0x67452301, 0xefcdab89, 0x98badcfe, 0x10325476) with
  | (a, b, c, d) => toLE 4 a ++ toLE 4 b ++ toLE 4 c ++ toLE 4 d

/-- A lower-case hexadecimal digit. -/
def hexChar (n : Nat) : Char := if n < 10 then Char.ofNat (48 + n) else Char.ofNat (87 + n)

/-- Embedding of `hashlib.md5(bytes).hexdigest()`: the 32-character lower-case
hex digest string. -/
def md5Hex (msg : List Nat) : String :=
  String.mk (((md5Digest msg).map fun b => [hexChar (b / 16), hexChar (b % 16)]).flatten)

/-! ## The file-system model

A file system object is a file with byte content or a directory with a list
of named children.  A real directory has no duplicate names; the
well-formedness predicate `wfFS` states that.  The entry list order stands in
for the (arbitrary) enumeration order of `Path.glob('*')`. -/

/-- A file-system object: a file (with its bytes) or a directory (with its
named children). -/
inductive FSObj where
  | file (content : List Nat)
  | dir (entries : List (String × FSObj))

/-- The events the program logs, one per action (see spec section 6).
`comparing` is the per-pass `Checking <replica> to reflect <source>` line;
`sleeping` is the `Entering <N>s sleep` line of the polling driver. -/
inductive Event where
  | comparing (replica source : List String)
  | removing (path : List String)
  | creating (path : List String)
  | adding (path : List String)
  | updating (path : List String)
  | sleeping (seconds : Nat)
deriving DecidableEq, Repr

/-- The errors the modelled file-system operations can raise, mirroring the
Python exceptions that would propagate out of a pass. -/
inductive FSError where
  | assertionError (msg : String)
  | notADirectoryError (path : List String)
  | isADirectoryError (path : List String)
deriving DecidableEq, Repr

/-- Entries visible to `path.glob('*')`: the children of a directory; a file
(or, in the driver's degenerate case, a non-directory) yields nothing, as
`glob` on a non-directory path yields no matches. -/
def entriesOf : FSObj → List (String × FSObj)
  | .file _ => []
  | .dir es => es

/-- The child-name set of one side, as built at lines 31–32 of the source. -/
def entryNames (o : FSObj) : List String := (entriesOf o).map Prod.fst

/-- Look a name up in an entry list (first match). -/
def lookupEntry : List (String × FSObj) → String → Option FSObj
  | [], _ => none
  | (m, o) :: rest, n => if m = n then some o else lookupEntry rest n

/-- Existence and retrieval of the child `n` of `o`; `(path / n).exists()` is
`(lookupFS o n).isSome`. -/
def lookupFS (o : FSObj) (n : String) : Option FSObj := lookupEntry (entriesOf o) n

/-- Remove every entry named `n` from an entry list (a real directory holds
at most one). -/
def removeEntry : List (String × FSObj) → String → List (String × FSObj)
  | [], _ => []
  | (m, o) :: rest, n => if m = n then removeEntry rest n else (m, o) :: removeEntry rest n

/-- Deletion of child `n` (`shutil.rmtree` for a directory, `Path.unlink` for
a file: both remove the whole entry). -/
def eraseChild (o : FSObj) (n : String) : FSObj :=
  match o with
  | .file c => .file c
  | .dir es => .dir (removeEntry es n)

/-- Replace the first entry named `n` (append if absent). -/
def replaceEntry : List (String × FSObj) → String → FSObj → List (String × FSObj)
  | [], n, c => [(n, c)]
  | (m, o) :: rest, n, c =>
    if m = n then (n, c) :: rest else (m, o) :: replaceEntry rest n c

/-- Write back the child `n` of `o` after an in-place mutation (recursion into
a subdirectory, or overwriting an existing file). -/
def setChild (o : FSObj) (n : String) (c : FSObj) : FSObj :=
  match o with
  | .file b => .file b
  | .dir es => .dir (replaceEntry es n c)

/-- Non-recursive `mkdir` of the child `n`; raises `NotADirectoryError` when
the parent is not a directory. -/
def mkdirChild (o : FSObj) (n : String) (p : List String) : Except FSError FSObj :=
  match o with
  | .file _ => .error (.notADirectoryError p)
  | .dir es => .ok (.dir (es ++ [(n, .dir [])]))

/-- The effect of `shutil.copy(source, replica / n)` when no child named `n`
exists: a new file appears; raises when the parent is not a directory.
(`shutil.copy` onto an existing path is modelled by `setChild`, and onto an
existing directory never occurs: the updating branch has already read the
destination as a file.) -/
def copyNew (o : FSObj) (n : String) (content : List Nat) (p : List String) :
    Except FSError FSObj :=
  match o with
  | .file _ => .error (.notADirectoryError p)
  | .dir es => .ok (.dir (es ++ [(n, .file content)]))

/-- Embedding of `Path.read_bytes()`: the bytes of a file; reading a directory
raises `IsADirectoryError`. -/
def readBytes (o : FSObj) (p : List String) : Except FSError (List Nat) :=
  match o with
  | .file c => .ok c
  | .dir _ => .error (.isADirectoryError p)

/-- The symmetric difference of the two name sets (line 33 of the source),
determinised as a list: source-only names then replica-only names. -/
def symmDiff (a b : List String) : List String :=
  a.filter (fun n => decide (n ∉ b)) ++ b.filter (fun n => decide (n ∉ a))

/-- The removal loop (lines 39–50): for each distinct name that exists in the
replica, log `Removing` and delete the entry. -/
def removeDistinct (rp : List String) (rep : FSObj) :
    List String → List Event × FSObj
  | [] => ([], rep)
  | n :: rest =>
    match lookupFS rep n with
    | some _ =>
      let step := removeDistinct rp (eraseChild rep n) rest
      (Event.removing (rp ++ [n]) :: step.1, step.2)
    | none => removeDistinct rp rep rest

/-- A list has pairwise-distinct elements. -/
def distinctNames : List String → Bool
  | [] => true
  | n :: rest => decide (n ∉ rest) && distinctNames rest

theorem sizeOf_list_pos {α} [SizeOf α] (l : List α) : 0 < sizeOf l := by
  cases l <;> simp

theorem sizeOf_entriesOf_lt (o : FSObj) : sizeOf (entriesOf o) < sizeOf o := by
  cases o with
  | file c => have := sizeOf_list_pos c; simp [entriesOf]; omega
  | dir es => simp [entriesOf]

/-! ## The tree comparator, `synchronize` (lines 18–90)

The pair returned is the event trace together with the final replica state
(`Except`: a raised exception aborts the pass, losing no already-logged
events; the final replica state is then unavailable). -/

mutual

/-- Embedding of `synchronize(source_path, replica_path, logger)`:
log `Checking`, build the two name sets, delete the replica entries named in
the symmetric difference, then walk the source entries (the source is
re-enumerated at line 36; removals touch only the replica, so the list is the
same).  `sp` and `rp` are the source and replica paths of this level. -/
def synchronize (sp rp : List String) (src rep : FSObj) :
    List Event × Except FSError FSObj :=
  let distinct := symmDiff (entryNames src) (entryNames rep)
  let removed := removeDistinct rp rep distinct
  let synced := syncEntries sp rp (entriesOf src) removed.2
  (Event.comparing rp sp :: (removed.1 ++ synced.1), synced.2)
termination_by sizeOf src
decreasing_by all_goals simp_wf <;> first
  | exact sizeOf_entriesOf_lt _
  | omega

/-- The synchronization loop of lines 53–90, one source entry at a time.
A directory entry is created when absent and recursed into; a file entry is
hashed against an existing replica child (overwrite on digest mismatch) or
copied when absent. -/
def syncEntries (sp rp : List String) (es : List (String × FSObj)) (rep : FSObj) :
    List Event × Except FSError FSObj :=
  match es with
  | [] => ([], .ok rep)
  | (n, srcObj) :: rest =>
    match srcObj with
    | .dir ses =>
      match lookupFS rep n with
      | some repChild =>
        let rec1 := synchronize (sp ++ [n]) (rp ++ [n]) (.dir ses) repChild
        match rec1.2 with
        | .error e => (rec1.1, .error e)
        | .ok newChild =>
          let rest1 := syncEntries sp rp rest (setChild rep n newChild)
          (rec1.1 ++ rest1.1, rest1.2)
      | none =>
        match mkdirChild rep n (rp ++ [n]) with
        | .error e => ([Event.creating (rp ++ [n])], .error e)
        | .ok rep1 =>
          let rec1 := synchronize (sp ++ [n]) (rp ++ [n]) (.dir ses) (FSObj.dir [])
          match rec1.2 with
          | .error e => (Event.creating (rp ++ [n]) :: rec1.1, .error e)
          | .ok newChild =>
            let rest1 := syncEntries sp rp rest (setChild rep1 n newChild)
            (Event.creating (rp ++ [n]) :: (rec1.1 ++ rest1.1), rest1.2)
    | .file content =>
      match lookupFS rep n with
      | some repChild =>
        match readBytes repChild (rp ++ [n]) with
        | .error e => ([], .error e)
        | .ok repBytes =>
          if md5Hex content ≠ md5Hex repBytes then
            let rest1 := syncEntries sp rp rest (setChild rep n (.file content))
            (Event.updating (rp ++ [n]) :: rest1.1, rest1.2)
          else
            syncEntries sp rp rest rep
      | none =>
        match copyNew rep n content (rp ++ [n]) with
        | .error e => ([Event.adding (rp ++ [n])], .error e)
        | .ok rep1 =>
          let rest1 := syncEntries sp rp rest rep1
          (Event.adding (rp ++ [n]) :: rest1.1, rest1.2)
termination_by sizeOf es
decreasing_by all_goals simp_wf <;> omega

end

/-! ## The driver, `main` (lines 92–133)

Logging setup and CLI parsing are glue; the modelled part is the root-path
validation, the replica-root creation, and the run-once / polling dispatch.
`sourceObj` and `replicaObj` are the objects found at the two root paths
(`none` when the path does not exist).  The polling loop is unbounded in the
program; `cycles` truncates the model's trace after that many iterations. -/

/-- The `while True` polling loop (lines 127–133): one pass, then the
`Entering <N>s sleep` notification, then `time.sleep(poll_interval)` seconds
of suspension, repeated; an exception escaping a pass escapes the loop. -/
def pollLoop (sp rp : List String) (src : FSObj) (pollInterval : Nat) :
    Nat → FSObj → List Event × Except FSError FSObj
  | 0, rep => ([], .ok rep)
  | cycles + 1, rep =>
    let pass := synchronize sp rp src rep
    match pass.2 with
    | .error e => (pass.1, .error e)
    | .ok rep1 =>
      let rest := pollLoop sp rp src pollInterval cycles rep1
      (pass.1 ++ Event.sleeping pollInterval :: rest.1, rest.2)

/-- Embedding of `main` from line 113 on: `assert source_path.exists()`;
create the replica root if absent (an existing replica root is used as is,
whatever its kind); then one pass when `poll_interval` is 0, else the
polling loop. -/
def mainRun (sp rp : List String) (sourceObj replicaObj : Option FSObj)
    (pollInterval cycles : Nat) : List Event × Except FSError FSObj :=
  match sourceObj with
  | none => ([], .error (.assertionError "Path to the source folder is incorrect"))
  | some src =>
    let rep := match replicaObj with
      | none => FSObj.dir []
      | some r => r
    if pollInterval == 0 then
      synchronize sp rp src rep
    else
      pollLoop sp rp src pollInterval cycles rep

/-! ## Specification-side predicates -/

mutual

/-- Well-formedness: no directory has two children with the same name (true
of every real directory tree). -/
def wfFS : FSObj → Bool
  | .file _ => true
  | .dir es => distinctNames (es.map Prod.fst) && wfEntries es
termination_by o => sizeOf o
decreasing_by all_goals simp_wf <;> omega

/-- All objects in an entry list are well-formed. -/
def wfEntries : List (String × FSObj) → Bool
  | [] => true
  | (_, o) :: rest => wfFS o && wfEntries rest
termination_by es => sizeOf es
decreasing_by all_goals simp_wf <;> omega

end

mutual

/-- Extensional tree equality: same recursive set of entry names, with equal
bytes at every file — the convergence target of the spec (entry order is not
significant). -/
def treeEq : FSObj → FSObj → Bool
  | .file a, .file b => a == b
  | .dir es, .dir fs =>
      entriesSub es fs && fs.all fun e => (lookupEntry es e.1).isSome
  | _, _ => false
termination_by a _ => sizeOf a
decreasing_by all_goals simp_wf <;> omega

/-- Every entry of `es` has a `treeEq`-equal entry of the same name in `fs`. -/
def entriesSub : List (String × FSObj) → List (String × FSObj) → Bool
  | [], _ => true
  | (n, o) :: rest, fs =>
      (match lookupEntry fs n with
       | some p => treeEq o p
       | none => false) && entriesSub rest fs
termination_by es _ => sizeOf es
decreasing_by all_goals simp_wf <;> omega

end

mutual

/-- Compatibility of a source tree with a replica tree: wherever a name is
present on both sides the kinds agree (no file/directory mismatch — the
spec's flagged open question), and matched files whose MD5 hex digests agree
have equal bytes (no digest collision among the matched pairs). -/
def compatible : FSObj → FSObj → Bool
  | .file a, .file b => !(md5Hex a == md5Hex b) || a == b
  | .dir es, .dir fs => compatEntries es fs
  | _, _ => false
termination_by a _ => sizeOf a
decreasing_by all_goals simp_wf <;> omega

/-- Entry-wise compatibility: names of `es` that also occur in `fs` point to
compatible objects. -/
def compatEntries : List (String × FSObj) → List (String × FSObj) → Bool
  | [], _ => true
  | (n, o) :: rest, fs =>
      (match lookupEntry fs n with
       | some p => compatible o p
       | none => true) && compatEntries rest fs
termination_by es _ => sizeOf es
decreasing_by all_goals simp_wf <;> omega

end

/-- The replica path an event was logged for (`none` for `sleeping`, which
carries no path). -/
def Event.replicaPath : Event → Option (List String)
  | .comparing r _ => some r
  | .removing p => some p
  | .creating p => some p
  | .adding p => some p
  | .updating p => some p
  | .sleeping _ => none

/-- The target path of a mutating event: each `removing`, `creating`,
`adding` and `updating` log line stands one-to-one for the `shutil.rmtree` /
`Path.unlink` / `Path.mkdir` / `shutil.copy` call at the same path. -/
def Event.mutPath : Event → Option (List String)
  | .removing p => some p
  | .creating p => some p
  | .adding p => some p
  | .updating p => some p
  | _ => none

/-- Whether an event is a `removing` log line. -/
def Event.isRemoving : Event → Bool
  | .removing _ => true
  | _ => false

/-- Whether an event is a `creating` log line. -/
def Event.isCreating : Event → Bool
  | .creating _ => true
  | _ => false

/-- Whether an event is an `adding` log line. -/
def Event.isAdding : Event → Bool
  | .adding _ => true
  | _ => false

/-- A removal logged at directory level `rp` (the deleted entry is an
immediate child of `rp`). -/
def removalAt (rp : List String) (e : Event) : Prop :=
  ∃ n, e = .removing (rp ++ [n])

/-- A create/copy/update logged at directory level `rp`. -/
def createOrUpdateAt (rp : List String) (e : Event) : Prop :=
  ∃ n, e = .creating (rp ++ [n]) ∨ e = .adding (rp ++ [n]) ∨ e = .updating (rp ++ [n])

/-! ## Basic lemmas about the entry-list operations -/

theorem lookupEntry_isSome_iff {es : List (String × FSObj)} {n : String} :
    (lookupEntry es n).isSome ↔ n ∈ es.map Prod.fst := by
  induction es with
  | nil => simp [lookupEntry]
  | cons e rest ih =>
    obtain ⟨m, o⟩ := e
    by_cases h : m = n
    · subst h; simp [lookupEntry]
    · simp [lookupEntry, h, ih, Ne.symm h]

theorem lookupEntry_eq_none_iff {es : List (String × FSObj)} {n : String} :
    lookupEntry es n = none ↔ n ∉ es.map Prod.fst := by
  rw [← lookupEntry_isSome_iff, ← Option.not_isSome_iff_eq_none]

theorem lookupEntry_mem {es : List (String × FSObj)} {n : String} {o : FSObj}
    (h : lookupEntry es n = some o) : (n, o) ∈ es := by
  induction es with
  | nil => simp [lookupEntry] at h
  | cons e rest ih =>
    obtain ⟨m, p⟩ := e
    by_cases hm : m = n
    · subst hm
      simp [lookupEntry] at h
      subst h; exact List.mem_cons_self _ _
    · simp only [lookupEntry, if_neg hm] at h
      exact List.mem_cons_of_mem _ (ih h)

theorem mem_map_fst_of_mem {es : List (String × FSObj)} {n : String} {o : FSObj}
    (h : (n, o) ∈ es) : n ∈ es.map Prod.fst :=
  List.mem_map.mpr ⟨(n, o), h, rfl⟩

theorem distinctNames_cons {n : String} {rest : List String} :
    distinctNames (n :: rest) = true ↔ n ∉ rest ∧ distinctNames rest = true := by
  simp [distinctNames]

theorem mem_lookupEntry {es : List (String × FSObj)} {n : String} {o : FSObj}
    (hd : distinctNames (es.map Prod.fst) = true) (h : (n, o) ∈ es) :
    lookupEntry es n = some o := by
  induction es with
  | nil => simp at h
  | cons e rest ih =>
    obtain ⟨m, p⟩ := e
    simp only [List.map_cons, distinctNames_cons] at hd
    rcases List.mem_cons.mp h with h1 | h1
    · injection h1 with h1a h1b
      subst h1a; subst h1b
      simp [lookupEntry]
    · have hne : m ≠ n := by
        intro he; subst he
        exact hd.1 (mem_map_fst_of_mem h1)
      simp only [lookupEntry, if_neg hne]
      exact ih hd.2 h1

theorem lookupEntry_replaceEntry {es : List (String × FSObj)} {n m : String} {c : FSObj} :
    lookupEntry (replaceEntry es n c) m = if m = n then some c else lookupEntry es m := by
  induction es with
  | nil =>
    by_cases h : m = n
    · subst h; simp [replaceEntry, lookupEntry]
    · simp [replaceEntry, lookupEntry, h, Ne.symm h]
  | cons e rest ih =>
    obtain ⟨k, o⟩ := e
    by_cases hk : k = n
    · subst hk
      by_cases hm : m = k
      · subst hm; simp [replaceEntry, lookupEntry]
      · simp [replaceEntry, lookupEntry, hm, Ne.symm hm]
    · by_cases hm : m = k
      · subst hm
        have hmn : m ≠ n := hk
        simp [replaceEntry, hk, lookupEntry, hmn]
      · simp [replaceEntry, hk, lookupEntry, Ne.symm hm, ih]

theorem map_fst_replaceEntry_of_mem {es : List (String × FSObj)} {n : String} {c : FSObj}
    (h : n ∈ es.map Prod.fst) :
    (replaceEntry es n c).map Prod.fst = es.map Prod.fst := by
  induction es with
  | nil => simp at h
  | cons e rest ih =>
    obtain ⟨k, o⟩ := e
    by_cases hk : k = n
    · subst hk; simp [replaceEntry]
    · simp only [List.map_cons, List.mem_cons] at h
      rcases h with h | h
      · exact absurd h.symm hk
      · simp [replaceEntry, hk, ih h]

theorem lookupEntry_append_new {es : List (String × FSObj)} {n m : String} {c : FSObj}
    (h : lookupEntry es n = none) :
    lookupEntry (es ++ [(n, c)]) m = if m = n then some c else lookupEntry es m := by
  induction es with
  | nil =>
    by_cases hm : m = n
    · subst hm; simp [lookupEntry]
    · simp [lookupEntry, hm, Ne.symm hm]
  | cons e rest ih =>
    obtain ⟨k, o⟩ := e
    have hkn : k ≠ n := by
      intro he; subst he; simp [lookupEntry] at h
    have h2 : lookupEntry rest n = none := by simpa [lookupEntry, hkn] using h
    by_cases hk : k = m
    · subst hk
      simp [lookupEntry, hkn]
    · simp [lookupEntry, hk, ih h2]

theorem lookupEntry_removeEntry {es : List (String × FSObj)} {n m : String} :
    lookupEntry (removeEntry es n) m = if m = n then none else lookupEntry es m := by
  induction es with
  | nil => simp [removeEntry, lookupEntry]
  | cons e rest ih =>
    obtain ⟨k, p⟩ := e
    by_cases hk : k = n
    · subst hk
      by_cases hm : m = k
      · subst hm; simp [removeEntry, lookupEntry, ih]
      · simp [removeEntry, lookupEntry, hm, ih, Ne.symm hm]
    · by_cases hm : m = k
      · subst hm
        have hmn : m ≠ n := hk
        simp [removeEntry, hk, lookupEntry, hmn]
      · simp [removeEntry, hk, lookupEntry, Ne.symm hm, ih]

theorem eraseChild_lookup {o : FSObj} {n m : String} :
    lookupFS (eraseChild o n) m = if m = n then none else lookupFS o m := by
  cases o with
  | file c => simp [eraseChild, lookupFS, entriesOf, lookupEntry]
  | dir es => simp [eraseChild, lookupFS, entriesOf, lookupEntry_removeEntry]

theorem eraseChild_dir {es : List (String × FSObj)} {n : String} :
    ∃ fs, eraseChild (.dir es) n = .dir fs := ⟨_, rfl⟩

theorem symmDiff_mem {a b : List String} {n : String} :
    n ∈ symmDiff a b ↔ (n ∈ a ∧ n ∉ b) ∨ (n ∈ b ∧ n ∉ a) := by
  simp [symmDiff, List.mem_append, List.mem_filter]

/-! ## Lemmas about the removal phase -/

theorem removeDistinct_lookup : ∀ (ds : List String) (rep : FSObj) (rp : List String)
    (m : String),
    lookupFS (removeDistinct rp rep ds).2 m = if m ∈ ds then none else lookupFS rep m := by
  intro ds
  induction ds with
  | nil => intro rep rp m; simp [removeDistinct]
  | cons n rest ih =>
    intro rep rp m
    cases hl : lookupFS rep n with
    | some o =>
      simp only [removeDistinct, hl]
      rw [ih]
      by_cases hm : m = n
      · subst hm; simp [eraseChild_lookup]
      · by_cases hr : m ∈ rest
        · simp [hr, hm]
        · simp [hr, hm, eraseChild_lookup]
    | none =>
      simp only [removeDistinct, hl]
      rw [ih]
      by_cases hm : m = n
      · subst hm
        by_cases hr : m ∈ rest <;> simp [hr, hl]
      · by_cases hr : m ∈ rest <;> simp [hr, hm]

theorem removeDistinct_events_shape : ∀ (ds : List String) (rep : FSObj) (rp : List String),
    ∀ e ∈ (removeDistinct rp rep ds).1, ∃ n, n ∈ ds ∧ e = .removing (rp ++ [n]) := by
  intro ds
  induction ds with
  | nil => intro rep rp e he; simp [removeDistinct] at he
  | cons n rest ih =>
    intro rep rp e he
    cases hl : lookupFS rep n with
    | some o =>
      simp only [removeDistinct, hl, List.mem_cons] at he
      rcases he with he | he
      · exact ⟨n, List.mem_cons_self _ _, he⟩
      · obtain ⟨k, hk, he⟩ := ih _ rp e he
        exact ⟨k, List.mem_cons_of_mem _ hk, he⟩
    | none =>
      simp only [removeDistinct, hl] at he
      obtain ⟨k, hk, he⟩ := ih _ rp e he
      exact ⟨k, List.mem_cons_of_mem _ hk, he⟩

theorem removeDistinct_events_mem : ∀ (ds : List String) (rep : FSObj) (rp : List String)
    (n : String), n ∈ ds → (lookupFS rep n).isSome = true →
    Event.removing (rp ++ [n]) ∈ (removeDistinct rp rep ds).1 := by
  intro ds
  induction ds with
  | nil => intro rep rp n hn; simp at hn
  | cons k rest ih =>
    intro rep rp n hn hs
    by_cases hnk : n = k
    · subst hnk
      obtain ⟨o, ho⟩ := Option.isSome_iff_exists.mp hs
      simp only [removeDistinct, ho]
      exact List.mem_cons_self _ _
    · have hmem : n ∈ rest := (List.mem_cons.mp hn).resolve_left hnk
      cases hl : lookupFS rep k with
      | some o =>
        simp only [removeDistinct, hl]
        refine List.mem_cons_of_mem _ (ih _ rp n hmem ?_)
        rw [eraseChild_lookup, if_neg hnk]
        exact hs
      | none =>
        simp only [removeDistinct, hl]
        exact ih _ rp n hmem hs

/-! ## Where events can be logged: path-shape invariants

Every event a pass logs at level `rp` has a replica path strictly below `rp`
(except the level's own `comparing` line), and every event logged by the
synchronization loop lies below `rp ++ [m]` for some source entry name `m`;
a `removing` event inside the loop comes from a deeper recursive pass. -/

theorem isRemoving_mutPath {e : Event} (h : e.isRemoving = true) :
    (Event.mutPath e).isSome = true := by
  cases e <;> simp_all [Event.isRemoving, Event.mutPath]

theorem eventsPathPair :
    (∀ (sp rp : List String) (src rep : FSObj), ∀ e ∈ (synchronize sp rp src rep).1,
        ∃ q, e.replicaPath = some (rp ++ q) ∧ ((Event.mutPath e).isSome = true → q ≠ [])) ∧
    (∀ (sp rp : List String) (es : List (String × FSObj)) (rep : FSObj),
        ∀ e ∈ (syncEntries sp rp es rep).1,
        ∃ m q, m ∈ es.map Prod.fst ∧ e.replicaPath = some (rp ++ m :: q) ∧
          (e.isRemoving = true → q ≠ [])) := by
  apply synchronize.mutual_induct
  · -- synchronize: comparing line, removal events, loop events
    intro sp rp src rep d rm ih e he
    simp only [rm, d] at ih
    simp only [synchronize, List.mem_cons, List.mem_append] at he
    rcases he with he | he | he
    · subst he
      exact ⟨[], by simp [Event.replicaPath, Event.mutPath]⟩
    · obtain ⟨n, _, he⟩ := removeDistinct_events_shape _ _ _ e he
      subst he
      exact ⟨[n], by simp [Event.replicaPath, Event.mutPath]⟩
    · obtain ⟨m, q, _, hpath, _⟩ := ih e he
      exact ⟨m :: q, hpath, fun _ => by simp⟩
  · -- nil
    intro sp rp rep e he
    simp [syncEntries] at he
  · -- dir entry, replica child exists, recursion fails
    intro sp rp rep n rest ses val hl r1 e2 herr ih e he
    simp only [r1] at herr
    simp only [syncEntries, hl, herr] at he
    obtain ⟨q, hpath, hmut⟩ := ih e he
    exact ⟨n, q, by simp, by simpa using hpath, fun hrem => hmut (isRemoving_mutPath hrem)⟩
  · -- dir entry, replica child exists, recursion succeeds
    intro sp rp rep n rest ses val hl r1 newChild hok ih1 ih2 e he
    simp only [r1] at hok
    simp only [syncEntries, hl, hok, List.mem_append] at he
    rcases he with he | he
    · obtain ⟨q, hpath, hmut⟩ := ih1 e he
      exact ⟨n, q, by simp, by simpa using hpath, fun hrem => hmut (isRemoving_mutPath hrem)⟩
    · obtain ⟨m, q, hm, hpath, hrem⟩ := ih2 e he
      exact ⟨m, q, by simp [hm], hpath, hrem⟩
  · -- dir entry, replica child absent, mkdir fails
    intro sp rp rep n rest ses hl e2 herr e he
    simp only [syncEntries, hl, herr, List.mem_singleton] at he
    subst he
    exact ⟨n, [], by simp, by simp [Event.replicaPath], by simp [Event.isRemoving]⟩
  · -- dir entry, replica child absent, mkdir ok, recursion fails
    intro sp rp rep n rest ses hl newChild hmk r1 e2 herr ih e he
    simp only [r1] at herr
    simp only [syncEntries, hl, hmk, herr, List.mem_cons] at he
    rcases he with he | he
    · subst he
      exact ⟨n, [], by simp, by simp [Event.replicaPath], by simp [Event.isRemoving]⟩
    · obtain ⟨q, hpath, hmut⟩ := ih e he
      exact ⟨n, q, by simp, by simpa using hpath, fun hrem => hmut (isRemoving_mutPath hrem)⟩
  · -- dir entry, replica child absent, mkdir ok, recursion ok
    intro sp rp rep n rest ses hl newChild hmk r1 newChild1 hok ih1 ih2 e he
    simp only [r1] at hok
    simp only [syncEntries, hl, hmk, hok, List.mem_cons, List.mem_append] at he
    rcases he with he | he | he
    · subst he
      exact ⟨n, [], by simp, by simp [Event.replicaPath], by simp [Event.isRemoving]⟩
    · obtain ⟨q, hpath, hmut⟩ := ih1 e he
      exact ⟨n, q, by simp, by simpa using hpath, fun hrem => hmut (isRemoving_mutPath hrem)⟩
    · obtain ⟨m, q, hm, hpath, hrem⟩ := ih2 e he
      exact ⟨m, q, by simp [hm], hpath, hrem⟩
  · -- file entry, replica child exists, read fails
    intro sp rp rep n rest content val hl e2 herr e he
    simp only [syncEntries, hl, herr] at he
    simp at he
  · -- file entry, replica child exists, digests differ
    intro sp rp rep n rest content val hl repBytes hrd hne ih e he
    simp only [syncEntries, hl, hrd, if_pos hne, List.mem_cons] at he
    rcases he with he | he
    · subst he
      exact ⟨n, [], by simp, by simp [Event.replicaPath], by simp [Event.isRemoving]⟩
    · obtain ⟨m, q, hm, hpath, hrem⟩ := ih e he
      exact ⟨m, q, by simp [hm], hpath, hrem⟩
  · -- file entry, replica child exists, digests equal
    intro sp rp rep n rest content val hl repBytes hrd heq ih e he
    simp only [syncEntries, hl, hrd, if_neg heq] at he
    obtain ⟨m, q, hm, hpath, hrem⟩ := ih e he
    exact ⟨m, q, by simp [hm], hpath, hrem⟩
  · -- file entry, replica child absent, copy fails
    intro sp rp rep n rest content hl e2 herr e he
    simp only [syncEntries, hl, herr, List.mem_singleton] at he
    subst he
    exact ⟨n, [], by simp, by simp [Event.replicaPath], by simp [Event.isRemoving]⟩
  · -- file entry, replica child absent, copy ok
    intro sp rp rep n rest content hl newChild hok ih e he
    simp only [syncEntries, hl, hok, List.mem_cons] at he
    rcases he with he | he
    · subst he
      exact ⟨n, [], by simp, by simp [Event.replicaPath], by simp [Event.isRemoving]⟩
    · obtain ⟨m, q, hm, hpath, hrem⟩ := ih e he
      exact ⟨m, q, by simp [hm], hpath, hrem⟩

/-! ## Characterizations of the specification-side predicates -/

theorem wfFS_dir_iff {es : List (String × FSObj)} : wfFS (.dir es) = true ↔
    distinctNames (es.map Prod.fst) = true ∧ wfEntries es = true := by
  simp [wfFS, Bool.and_eq_true]

theorem wfEntries_iff {es : List (String × FSObj)} :
    wfEntries es = true ↔ ∀ n o, (n, o) ∈ es → wfFS o = true := by
  induction es with
  | nil => simp [wfEntries]
  | cons e rest ih =>
    obtain ⟨m, p⟩ := e
    simp only [wfEntries, Bool.and_eq_true, ih]
    constructor
    · rintro ⟨h1, h2⟩ n o hmem
      rcases List.mem_cons.mp hmem with h | h
      · injection h with ha hb; subst ha; subst hb; exact h1
      · exact h2 n o h
    · intro h
      exact ⟨h m p (List.mem_cons_self _ _),
        fun n o hm => h n o (List.mem_cons_of_mem _ hm)⟩

theorem compatible_file_iff {a b : List Nat} :
    compatible (.file a) (.file b) = true ↔ (md5Hex a = md5Hex b → a = b) := by
  simp only [compatible, Bool.or_eq_true, Bool.not_eq_eq_eq_not, Bool.not_true, beq_iff_eq,
    beq_eq_false_iff_ne]
  constructor
  · rintro (h | h) heq
    · exact absurd heq h
    · exact h
  · intro h
    by_cases heq : md5Hex a = md5Hex b
    · exact Or.inr (h heq)
    · exact Or.inl heq

theorem compatible_file_dir {a : List Nat} {fs : List (String × FSObj)} :
    compatible (.file a) (.dir fs) = false := by simp [compatible]

theorem compatible_dir_file {es : List (String × FSObj)} {b : List Nat} :
    compatible (.dir es) (.file b) = false := by simp [compatible]

theorem compatEntries_iff {es fs : List (String × FSObj)} :
    compatEntries es fs = true ↔
      ∀ n o, (n, o) ∈ es → ∀ p, lookupEntry fs n = some p → compatible o p = true := by
  induction es with
  | nil => simp [compatEntries]
  | cons e rest ih =>
    obtain ⟨m, o⟩ := e
    simp only [compatEntries, Bool.and_eq_true, ih]
    constructor
    · rintro ⟨h1, h2⟩ n o2 hmem p hp
      rcases List.mem_cons.mp hmem with h | h
      · injection h with ha hb; subst ha; subst hb
        rw [hp] at h1
        exact h1
      · exact h2 n o2 h p hp
    · intro h
      refine ⟨?_, fun n o2 hm p hp => h n o2 (List.mem_cons_of_mem _ hm) p hp⟩
      cases hl : lookupEntry fs m with
      | none => rfl
      | some p => exact h m o (List.mem_cons_self _ _) p hl

theorem compatEntries_nil_right {es : List (String × FSObj)} :
    compatEntries es [] = true := by
  induction es with
  | nil => simp [compatEntries]
  | cons e rest ih =>
    obtain ⟨m, o⟩ := e
    simp [compatEntries, lookupEntry, ih]

theorem treeEq_file_iff {a b : List Nat} : treeEq (.file a) (.file b) = true ↔ a = b := by
  simp [treeEq]

theorem treeEq_dir_iff {es fs : List (String × FSObj)} :
    treeEq (.dir es) (.dir fs) = true ↔
      entriesSub es fs = true ∧ ∀ n p, (n, p) ∈ fs → (lookupEntry es n).isSome = true := by
  simp only [treeEq, Bool.and_eq_true, List.all_eq_true]
  constructor
  · rintro ⟨h1, h2⟩
    exact ⟨h1, fun n p hm => h2 (n, p) hm⟩
  · rintro ⟨h1, h2⟩
    exact ⟨h1, fun e hm => h2 e.1 e.2 hm⟩

theorem entriesSub_iff {es fs : List (String × FSObj)} :
    entriesSub es fs = true ↔
      ∀ n o, (n, o) ∈ es → ∃ p, lookupEntry fs n = some p ∧ treeEq o p = true := by
  induction es with
  | nil => simp [entriesSub]
  | cons e rest ih =>
    obtain ⟨m, o⟩ := e
    simp only [entriesSub, Bool.and_eq_true, ih]
    constructor
    · rintro ⟨h1, h2⟩ n o2 hmem
      rcases List.mem_cons.mp hmem with h | h
      · injection h with ha hb
        rw [ha, hb]
        cases hl : lookupEntry fs m with
        | none => rw [hl] at h1; exact absurd h1 (by simp)
        | some p => rw [hl] at h1; exact ⟨p, rfl, h1⟩
      · exact h2 n o2 h
    · intro h
      obtain ⟨p, hp, he⟩ := h m o (List.mem_cons_self _ _)
      refine ⟨?_, fun n o2 hm => h n o2 (List.mem_cons_of_mem _ hm)⟩
      rw [hp]; exact he

/-! ## Preservation of well-formedness by the mutating operations -/

theorem distinctNames_iff_nodup {l : List String} : distinctNames l = true ↔ l.Nodup := by
  induction l with
  | nil => simp [distinctNames]
  | cons n rest ih => simp [distinctNames_cons, ih, List.nodup_cons]

theorem distinctNames_append_singleton {l : List String} {n : String} :
    distinctNames (l ++ [n]) = true ↔ n ∉ l ∧ distinctNames l = true := by
  simp only [distinctNames_iff_nodup]
  constructor
  · intro h
    have h2 := List.nodup_append.mp h
    refine ⟨fun hn => ?_, h2.1⟩
    exact h2.2.2 hn (List.mem_singleton_self n)
  · rintro ⟨hn, hl⟩
    refine List.nodup_append.mpr ⟨hl, List.nodup_singleton n, ?_⟩
    intro a ha hb
    rw [List.mem_singleton] at hb
    subst hb
    exact hn ha

theorem removeEntry_mem_sub {es : List (String × FSObj)} {n : String} {e : String × FSObj}
    (h : e ∈ removeEntry es n) : e ∈ es := by
  induction es with
  | nil => simpa [removeEntry] using h
  | cons f rest ih =>
    obtain ⟨k, o⟩ := f
    by_cases hk : k = n
    · simp only [removeEntry, if_pos hk] at h
      exact List.mem_cons_of_mem _ (ih h)
    · simp only [removeEntry, if_neg hk, List.mem_cons] at h
      rcases h with h | h
      · exact h ▸ List.mem_cons_self _ _
      · exact List.mem_cons_of_mem _ (ih h)

theorem removeEntry_map_fst_sublist {es : List (String × FSObj)} {n : String} :
    ((removeEntry es n).map Prod.fst).Sublist (es.map Prod.fst) := by
  induction es with
  | nil => simp [removeEntry]
  | cons f rest ih =>
    obtain ⟨k, o⟩ := f
    by_cases hk : k = n
    · simp only [removeEntry, if_pos hk, List.map_cons]
      exact ih.cons _
    · simp only [removeEntry, if_neg hk, List.map_cons]
      exact ih.cons₂ _

theorem eraseChild_dir_shape {es : List (String × FSObj)} {n : String} :
    eraseChild (.dir es) n = .dir (removeEntry es n) := rfl

theorem eraseChild_wf {o : FSObj} {n : String} (h : wfFS o = true) :
    wfFS (eraseChild o n) = true := by
  cases o with
  | file c => exact h
  | dir es =>
    rw [eraseChild_dir_shape]
    rw [wfFS_dir_iff] at h ⊢
    refine ⟨?_, ?_⟩
    · rw [distinctNames_iff_nodup]
      exact List.Nodup.sublist removeEntry_map_fst_sublist (distinctNames_iff_nodup.mp h.1)
    · rw [wfEntries_iff]
      exact fun k p hm => (wfEntries_iff.mp h.2) k p (removeEntry_mem_sub hm)

theorem removeDistinct_wf : ∀ (ds : List String) (rep : FSObj) (rp : List String),
    wfFS rep = true → wfFS (removeDistinct rp rep ds).2 = true := by
  intro ds
  induction ds with
  | nil => intro rep rp h; simpa [removeDistinct] using h
  | cons n rest ih =>
    intro rep rp h
    cases hl : lookupFS rep n with
    | some o =>
      simp only [removeDistinct, hl]
      exact ih _ rp (eraseChild_wf h)
    | none =>
      simp only [removeDistinct, hl]
      exact ih _ rp h

theorem removeDistinct_dir : ∀ (ds : List String) (es : List (String × FSObj))
    (rp : List String), ∃ fs, (removeDistinct rp (.dir es) ds).2 = .dir fs := by
  intro ds
  induction ds with
  | nil => intro es rp; exact ⟨es, rfl⟩
  | cons n rest ih =>
    intro es rp
    cases hl : lookupFS (.dir es) n with
    | some o =>
      simp only [removeDistinct, hl, eraseChild_dir_shape]
      exact ih _ rp
    | none =>
      simp only [removeDistinct, hl]
      exact ih _ rp

theorem replaceEntry_mem_sub {es : List (String × FSObj)} {n : String} {c : FSObj}
    {e : String × FSObj} (h : e ∈ replaceEntry es n c) : e = (n, c) ∨ e ∈ es := by
  induction es with
  | nil => simpa [replaceEntry] using h
  | cons f rest ih =>
    obtain ⟨k, o⟩ := f
    by_cases hk : k = n
    · simp only [replaceEntry, if_pos hk, List.mem_cons] at h
      rcases h with h | h
      · exact Or.inl h
      · exact Or.inr (List.mem_cons_of_mem _ h)
    · simp only [replaceEntry, if_neg hk, List.mem_cons] at h
      rcases h with h | h
      · exact Or.inr (h ▸ List.mem_cons_self _ _)
      · rcases ih h with h | h
        · exact Or.inl h
        · exact Or.inr (List.mem_cons_of_mem _ h)

theorem setChild_dir_shape {fs : List (String × FSObj)} {n : String} {c : FSObj} :
    setChild (.dir fs) n c = .dir (replaceEntry fs n c) := rfl

theorem setChild_wf {fs : List (String × FSObj)} {n : String} {c : FSObj}
    (h : wfFS (.dir fs) = true) (hc : wfFS c = true) (hn : n ∈ fs.map Prod.fst) :
    wfFS (.dir (replaceEntry fs n c)) = true := by
  rw [wfFS_dir_iff] at h ⊢
  refine ⟨by rw [map_fst_replaceEntry_of_mem hn]; exact h.1, ?_⟩
  rw [wfEntries_iff]
  intro k p hm
  rcases replaceEntry_mem_sub hm with hm | hm
  · injection hm with h1 h2; subst h2; exact hc
  · exact (wfEntries_iff.mp h.2) k p hm

theorem appendEntry_wf {fs : List (String × FSObj)} {n : String} {c : FSObj}
    (h : wfFS (.dir fs) = true) (hc : wfFS c = true) (hn : n ∉ fs.map Prod.fst) :
    wfFS (.dir (fs ++ [(n, c)])) = true := by
  rw [wfFS_dir_iff] at h ⊢
  constructor
  · rw [List.map_append, List.map_cons, List.map_nil]
    exact distinctNames_append_singleton.mpr ⟨hn, h.1⟩
  · rw [wfEntries_iff]
    intro k p hm
    rcases List.mem_append.mp hm with hm | hm
    · exact (wfEntries_iff.mp h.2) k p hm
    · rw [List.mem_singleton] at hm
      injection hm with h1 h2; subst h2; exact hc

theorem wfFS_file {c : List Nat} : wfFS (.file c) = true := by simp [wfFS]

theorem wfFS_dirEmpty : wfFS (.dir []) = true := by simp [wfFS, distinctNames, wfEntries]

theorem compatible_dirEmpty {ses : List (String × FSObj)} :
    compatible (.dir ses) (.dir []) = true := by
  simp [compatible, compatEntries_nil_right]

theorem lookupFS_dir {fs : List (String × FSObj)} {n : String} :
    lookupFS (.dir fs) n = lookupEntry fs n := rfl

theorem readBytes_file {c : List Nat} {p : List String} :
    readBytes (.file c) p = .ok c := rfl

theorem wfEntries_cons_iff {n : String} {o : FSObj} {rest : List (String × FSObj)} :
    wfEntries ((n, o) :: rest) = true ↔ wfFS o = true ∧ wfEntries rest = true := by
  simp [wfEntries, Bool.and_eq_true]

theorem distinctNames_entry_cons {n : String} {o : FSObj} {rest : List (String × FSObj)} :
    distinctNames (((n, o) :: rest).map Prod.fst) = true ↔
      n ∉ rest.map Prod.fst ∧ distinctNames (rest.map Prod.fst) = true := by
  rw [List.map_cons, distinctNames_cons]

/-! ## Convergence of one pass on compatible, well-formed trees -/

theorem syncCorrectPair :
    (∀ (sp rp : List String) (src rep : FSObj),
      ∀ ses fs, src = .dir ses → rep = .dir fs →
      wfFS src = true → wfFS rep = true → compatible src rep = true →
      ∃ fs2 tr, synchronize sp rp src rep = (tr, .ok (.dir fs2)) ∧
        wfFS (.dir fs2) = true ∧ treeEq src (.dir fs2) = true) ∧
    (∀ (sp rp : List String) (es : List (String × FSObj)) (rep : FSObj),
      ∀ fs, rep = .dir fs →
      distinctNames (es.map Prod.fst) = true → wfEntries es = true →
      wfFS rep = true →
      (∀ n o p, (n, o) ∈ es → lookupEntry fs n = some p → compatible o p = true) →
      ∃ fs2 tr, syncEntries sp rp es rep = (tr, .ok (.dir fs2)) ∧
        wfFS (.dir fs2) = true ∧
        (∀ n o, (n, o) ∈ es → ∃ p, lookupEntry fs2 n = some p ∧ treeEq o p = true) ∧
        (∀ m, m ∉ es.map Prod.fst → lookupEntry fs2 m = lookupEntry fs m)) := by
  apply synchronize.mutual_induct
  · -- synchronize = removal phase, then the loop
    intro sp rp src rep d rm ih ses fs hsrc hrep hwfs hwfr hcompat
    subst hsrc; subst hrep
    simp only [rm, d] at ih
    obtain ⟨fs1, hfs1⟩ :=
      removeDistinct_dir (symmDiff (entryNames (.dir ses)) (entryNames (.dir fs))) fs rp
    have hwf1 : wfFS (.dir fs1) = true := by
      have := removeDistinct_wf
        (symmDiff (entryNames (.dir ses)) (entryNames (.dir fs))) (.dir fs) rp hwfr
      rwa [hfs1] at this
    have hlook1 : ∀ m, lookupEntry fs1 m =
        if m ∈ symmDiff (entryNames (.dir ses)) (entryNames (.dir fs)) then none
        else lookupEntry fs m := by
      intro m
      have := removeDistinct_lookup
        (symmDiff (entryNames (.dir ses)) (entryNames (.dir fs))) (.dir fs) rp m
      rw [hfs1] at this
      simpa [lookupFS_dir] using this
    have hwfd := wfFS_dir_iff.mp hwfs
    have hcompatE : compatEntries ses fs = true := by simpa [compatible] using hcompat
    have hmemsub : ∀ n o, (n, o) ∈ entriesOf (.dir ses) → (n, o) ∈ ses := by
      simp [entriesOf]
    obtain ⟨fs2, tr2, hrun2, hwf2, hpoint2, hframe2⟩ := by
      refine ih fs1 hfs1 ?_ ?_ ?_ ?_
      · simpa [entriesOf] using hwfd.1
      · simpa [entriesOf] using hwfd.2
      · rw [hfs1]; exact hwf1
      · intro n o p hmem hlp
        rw [hlook1] at hlp
        by_cases hsd : n ∈ symmDiff (entryNames (.dir ses)) (entryNames (.dir fs))
        · rw [if_pos hsd] at hlp; exact absurd hlp (by simp)
        · rw [if_neg hsd] at hlp
          exact (compatEntries_iff.mp hcompatE) n o (hmemsub n o hmem) p hlp
    refine ⟨fs2,
      Event.comparing rp sp ::
        ((removeDistinct rp (.dir fs)
          (symmDiff (entryNames (.dir ses)) (entryNames (.dir fs)))).1 ++ tr2), ?_, hwf2, ?_⟩
    · simp only [synchronize, hrun2]
    · refine treeEq_dir_iff.mpr ⟨entriesSub_iff.mpr ?_, ?_⟩
      · intro n o hmem
        exact hpoint2 n o (by simpa [entriesOf] using hmem)
      · intro n p hmem
        by_contra hns
        have hn : n ∉ ses.map Prod.fst := by
          rwa [lookupEntry_isSome_iff] at hns
        have h2 : lookupEntry fs2 n = lookupEntry fs1 n :=
          hframe2 n (by simpa [entriesOf] using hn)
        have h3 : (lookupEntry fs2 n).isSome = true :=
          lookupEntry_isSome_iff.mpr (mem_map_fst_of_mem hmem)
        rw [h2, hlook1] at h3
        by_cases hsd : n ∈ symmDiff (entryNames (.dir ses)) (entryNames (.dir fs))
        · rw [if_pos hsd] at h3; simp at h3
        · rw [if_neg hsd] at h3
          have h4 : n ∈ fs.map Prod.fst := lookupEntry_isSome_iff.mp h3
          exact hsd (symmDiff_mem.mpr (Or.inr
            ⟨by simpa [entryNames, entriesOf] using h4,
             by simpa [entryNames, entriesOf] using hn⟩))
  · -- empty entry list: nothing to do
    intro sp rp rep fs hrep hdist hwfe hwfr hcompat
    subst hrep
    exact ⟨fs, [], by simp [syncEntries], hwfr, by simp, fun m hm => rfl⟩
  · -- directory entry with existing replica child: recursion cannot fail
    intro sp rp rep n rest ses val hl r1 e2 herr ih fs hrep hdist hwfe hwfr hcompat
    subst hrep
    simp only [r1] at herr
    have hlv : lookupEntry fs n = some val := by simpa [lookupFS_dir] using hl
    have hcv : compatible (.dir ses) val = true :=
      hcompat n (.dir ses) val (List.mem_cons_self _ _) hlv
    cases val with
    | file b => rw [compatible_dir_file] at hcv; exact absurd hcv (by simp)
    | dir vfs =>
      have hwfses : wfFS (.dir ses) = true :=
        (wfEntries_cons_iff.mp hwfe).1
      have hwfval : wfFS (.dir vfs) = true :=
        (wfEntries_iff.mp (wfFS_dir_iff.mp hwfr).2) n _ (lookupEntry_mem hlv)
      obtain ⟨cfs, ctr, hcrun, _, _⟩ := ih ses vfs rfl rfl hwfses hwfval hcv
      rw [hcrun] at herr
      simp at herr
  · -- directory entry with existing replica child: recursion succeeded
    intro sp rp rep n rest ses val hl r1 newChild hok ih1 ih2 fs hrep hdist hwfe hwfr hcompat
    subst hrep
    simp only [r1] at hok
    have hlv : lookupEntry fs n = some val := by simpa [lookupFS_dir] using hl
    have hcv : compatible (.dir ses) val = true :=
      hcompat n (.dir ses) val (List.mem_cons_self _ _) hlv
    cases val with
    | file b => rw [compatible_dir_file] at hcv; exact absurd hcv (by simp)
    | dir vfs =>
      have hwfses : wfFS (.dir ses) = true := (wfEntries_cons_iff.mp hwfe).1
      have hwfval : wfFS (.dir vfs) = true :=
        (wfEntries_iff.mp (wfFS_dir_iff.mp hwfr).2) n _ (lookupEntry_mem hlv)
      obtain ⟨cfs, ctr, hcrun, hcwf, hceq⟩ := ih1 ses vfs rfl rfl hwfses hwfval hcv
      rw [hcrun] at hok
      simp only [Except.ok.injEq] at hok
      subst hok
      have hd := distinctNames_entry_cons.mp hdist
      have hmem_n : n ∈ fs.map Prod.fst :=
        lookupEntry_isSome_iff.mp (by rw [hlv]; rfl)
      obtain ⟨fs2, tr2, hrun2, hwf2, hpoint2, hframe2⟩ := by
        refine ih2 (replaceEntry fs n (.dir cfs)) (by rw [setChild_dir_shape]) hd.2
          (wfEntries_cons_iff.mp hwfe).2 ?_ ?_
        · rw [setChild_dir_shape]
          exact setChild_wf hwfr hcwf hmem_n
        · intro k o p hm hlkp
          have hkn : k ≠ n := fun he => hd.1 (he ▸ mem_map_fst_of_mem hm)
          rw [lookupEntry_replaceEntry, if_neg hkn] at hlkp
          exact hcompat k o p (List.mem_cons_of_mem _ hm) hlkp
      rw [setChild_dir_shape] at hrun2
      refine ⟨fs2, ctr ++ tr2, ?_, hwf2, ?_, ?_⟩
      · simp only [syncEntries, hl, hcrun, setChild_dir_shape, hrun2]
      · intro k o hm
        rcases List.mem_cons.mp hm with hm | hm
        · injection hm with ha hb
          subst ha; subst hb
          refine ⟨.dir cfs, ?_, hceq⟩
          rw [hframe2 k hd.1, lookupEntry_replaceEntry, if_pos rfl]
        · exact hpoint2 k o hm
      · intro m hm
        rw [distinctNames_entry_cons] at hdist
        have h2 : m ≠ n ∧ m ∉ rest.map Prod.fst := by
          rw [List.map_cons] at hm
          exact ⟨fun he => hm (he ▸ List.mem_cons_self _ _),
            fun he => hm (List.mem_cons_of_mem _ he)⟩
        rw [hframe2 m h2.2, lookupEntry_replaceEntry, if_neg h2.1]
  · -- directory entry, child absent: mkdir on a directory parent cannot fail
    intro sp rp rep n rest ses hl e2 herr fs hrep hdist hwfe hwfr hcompat
    subst hrep
    simp [mkdirChild] at herr
  · -- directory entry, child absent, mkdir ok: recursion cannot fail
    intro sp rp rep n rest ses hl newChild hmk r1 e2 herr ih fs hrep hdist hwfe hwfr hcompat
    subst hrep
    simp only [r1] at herr
    have hwfses : wfFS (.dir ses) = true := (wfEntries_cons_iff.mp hwfe).1
    obtain ⟨cfs, ctr, hcrun, _, _⟩ :=
      ih ses [] rfl rfl hwfses wfFS_dirEmpty compatible_dirEmpty
    rw [hcrun] at herr
    simp at herr
  · -- directory entry, child absent: create it, recurse, continue
    intro sp rp rep n rest ses hl newChild hmk r1 newChild1 hok ih1 ih2 fs hrep hdist hwfe
      hwfr hcompat
    subst hrep
    simp only [r1] at hok
    simp only [mkdirChild, Except.ok.injEq] at hmk
    subst hmk
    have hwfses : wfFS (.dir ses) = true := (wfEntries_cons_iff.mp hwfe).1
    obtain ⟨cfs, ctr, hcrun, hcwf, hceq⟩ :=
      ih1 ses [] rfl rfl hwfses wfFS_dirEmpty compatible_dirEmpty
    rw [hcrun] at hok
    simp only [Except.ok.injEq] at hok
    subst hok
    have hd := distinctNames_entry_cons.mp hdist
    have hnin : n ∉ fs.map Prod.fst := by
      rw [← lookupEntry_eq_none_iff]
      simpa [lookupFS_dir] using hl
    have hstate : ∀ m, lookupEntry (replaceEntry (fs ++ [(n, FSObj.dir [])]) n (.dir cfs)) m =
        if m = n then some (.dir cfs) else lookupEntry fs m := by
      intro m
      rw [lookupEntry_replaceEntry]
      by_cases hm : m = n
      · simp [hm]
      · rw [if_neg hm, if_neg hm,
          lookupEntry_append_new (lookupEntry_eq_none_iff.mpr hnin), if_neg hm]
    obtain ⟨fs2, tr2, hrun2, hwf2, hpoint2, hframe2⟩ := by
      refine ih2 (replaceEntry (fs ++ [(n, FSObj.dir [])]) n (.dir cfs))
        (by rw [setChild_dir_shape]) hd.2 (wfEntries_cons_iff.mp hwfe).2 ?_ ?_
      · rw [setChild_dir_shape]
        refine setChild_wf (appendEntry_wf hwfr wfFS_dirEmpty hnin) hcwf ?_
        simp
      · intro k o p hm hlkp
        have hkn : k ≠ n := fun he => hd.1 (he ▸ mem_map_fst_of_mem hm)
        rw [hstate, if_neg hkn] at hlkp
        exact hcompat k o p (List.mem_cons_of_mem _ hm) hlkp
    rw [setChild_dir_shape] at hrun2
    refine ⟨fs2, Event.creating (rp ++ [n]) :: (ctr ++ tr2), ?_, hwf2, ?_, ?_⟩
    · simp only [syncEntries, hl, mkdirChild, hcrun, setChild_dir_shape, hrun2]
    · intro k o hm
      rcases List.mem_cons.mp hm with hm | hm
      · injection hm with ha hb
        subst ha; subst hb
        refine ⟨.dir cfs, ?_, hceq⟩
        rw [hframe2 k hd.1, hstate, if_pos rfl]
      · exact hpoint2 k o hm
    · intro m hm
      have h2 : m ≠ n ∧ m ∉ rest.map Prod.fst := by
        rw [List.map_cons] at hm
        exact ⟨fun he => hm (he ▸ List.mem_cons_self _ _),
          fun he => hm (List.mem_cons_of_mem _ he)⟩
      rw [hframe2 m h2.2, hstate, if_neg h2.1]
  · -- file entry with existing replica child: reading it cannot fail
    intro sp rp rep n rest content val hl e2 herr fs hrep hdist hwfe hwfr hcompat
    subst hrep
    have hlv : lookupEntry fs n = some val := by simpa [lookupFS_dir] using hl
    have hcv : compatible (.file content) val = true :=
      hcompat n (.file content) val (List.mem_cons_self _ _) hlv
    cases val with
    | dir vfs => rw [compatible_file_dir] at hcv; exact absurd hcv (by simp)
    | file b => rw [readBytes_file] at herr; exact absurd herr (by simp)
  · -- file entry, replica bytes differ: overwrite
    intro sp rp rep n rest content val hl repBytes hrd hne ih fs hrep hdist hwfe hwfr hcompat
    subst hrep
    have hlv : lookupEntry fs n = some val := by simpa [lookupFS_dir] using hl
    have hcv : compatible (.file content) val = true :=
      hcompat n (.file content) val (List.mem_cons_self _ _) hlv
    cases val with
    | dir vfs => rw [compatible_file_dir] at hcv; exact absurd hcv (by simp)
    | file b =>
      rw [readBytes_file] at hrd
      simp only [Except.ok.injEq] at hrd
      subst hrd
      have hd := distinctNames_entry_cons.mp hdist
      have hmem_n : n ∈ fs.map Prod.fst :=
        lookupEntry_isSome_iff.mp (by rw [hlv]; rfl)
      obtain ⟨fs2, tr2, hrun2, hwf2, hpoint2, hframe2⟩ := by
        refine ih (replaceEntry fs n (.file content)) (by rw [setChild_dir_shape]) hd.2
          (wfEntries_cons_iff.mp hwfe).2 ?_ ?_
        · rw [setChild_dir_shape]
          exact setChild_wf hwfr wfFS_file hmem_n
        · intro k o p hm hlkp
          have hkn : k ≠ n := fun he => hd.1 (he ▸ mem_map_fst_of_mem hm)
          rw [lookupEntry_replaceEntry, if_neg hkn] at hlkp
          exact hcompat k o p (List.mem_cons_of_mem _ hm) hlkp
      rw [setChild_dir_shape] at hrun2
      refine ⟨fs2, Event.updating (rp ++ [n]) :: tr2, ?_, hwf2, ?_, ?_⟩
      · simp only [syncEntries, hl, readBytes_file, if_pos hne, setChild_dir_shape, hrun2]
      · intro k o hm
        rcases List.mem_cons.mp hm with hm | hm
        · injection hm with ha hb
          subst ha; subst hb
          refine ⟨.file content, ?_, by simp [treeEq]⟩
          rw [hframe2 k hd.1, lookupEntry_replaceEntry, if_pos rfl]
        · exact hpoint2 k o hm
      · intro m hm
        have h2 : m ≠ n ∧ m ∉ rest.map Prod.fst := by
          rw [List.map_cons] at hm
          exact ⟨fun he => hm (he ▸ List.mem_cons_self _ _),
            fun he => hm (List.mem_cons_of_mem _ he)⟩
        rw [hframe2 m h2.2, lookupEntry_replaceEntry, if_neg h2.1]
  · -- file entry, digests equal: compatibility forces equal bytes, no action
    intro sp rp rep n rest content val hl repBytes hrd heq ih fs hrep hdist hwfe hwfr hcompat
    subst hrep
    have hlv : lookupEntry fs n = some val := by simpa [lookupFS_dir] using hl
    have hcv : compatible (.file content) val = true :=
      hcompat n (.file content) val (List.mem_cons_self _ _) hlv
    cases val with
    | dir vfs => rw [compatible_file_dir] at hcv; exact absurd hcv (by simp)
    | file b =>
      rw [readBytes_file] at hrd
      simp only [Except.ok.injEq] at hrd
      subst hrd
      have hbeq : content = b := by
        have := compatible_file_iff.mp hcv
        exact this (not_not.mp (fun hc => heq hc))
      have hd := distinctNames_entry_cons.mp hdist
      obtain ⟨fs2, tr2, hrun2, hwf2, hpoint2, hframe2⟩ :=
        ih fs rfl hd.2 (wfEntries_cons_iff.mp hwfe).2 hwfr
          (fun k o p hm hlkp => hcompat k o p (List.mem_cons_of_mem _ hm) hlkp)
      refine ⟨fs2, tr2, ?_, hwf2, ?_, ?_⟩
      · simp only [syncEntries, hl, readBytes_file, if_neg heq, hrun2]
      · intro k o hm
        rcases List.mem_cons.mp hm with hm | hm
        · injection hm with ha hb
          subst ha; subst hb
          refine ⟨.file b, ?_, by simp [treeEq, hbeq]⟩
          rw [hframe2 k hd.1, hlv]
        · exact hpoint2 k o hm
      · intro m hm
        have h2 : m ∉ rest.map Prod.fst := by
          rw [List.map_cons] at hm
          exact fun he => hm (List.mem_cons_of_mem _ he)
        exact hframe2 m h2
  · -- file entry, child absent: copy onto a directory parent cannot fail
    intro sp rp rep n rest content hl e2 herr fs hrep hdist hwfe hwfr hcompat
    subst hrep
    simp [copyNew] at herr
  · -- file entry, child absent: copy the file, continue
    intro sp rp rep n rest content hl newChild hok ih fs hrep hdist hwfe hwfr hcompat
    subst hrep
    simp only [copyNew, Except.ok.injEq] at hok
    subst hok
    have hd := distinctNames_entry_cons.mp hdist
    have hnin : n ∉ fs.map Prod.fst := by
      rw [← lookupEntry_eq_none_iff]
      simpa [lookupFS_dir] using hl
    have hstate : ∀ m, lookupEntry (fs ++ [(n, FSObj.file content)]) m =
        if m = n then some (.file content) else lookupEntry fs m := by
      intro m
      rw [lookupEntry_append_new (lookupEntry_eq_none_iff.mpr hnin)]
    obtain ⟨fs2, tr2, hrun2, hwf2, hpoint2, hframe2⟩ := by
      refine ih (fs ++ [(n, FSObj.file content)]) rfl hd.2
        (wfEntries_cons_iff.mp hwfe).2 (appendEntry_wf hwfr wfFS_file hnin) ?_
      · intro k o p hm hlkp
        have hkn : k ≠ n := fun he => hd.1 (he ▸ mem_map_fst_of_mem hm)
        rw [hstate, if_neg hkn] at hlkp
        exact hcompat k o p (List.mem_cons_of_mem _ hm) hlkp
    refine ⟨fs2, Event.adding (rp ++ [n]) :: tr2, ?_, hwf2, ?_, ?_⟩
    · simp only [syncEntries, hl, copyNew, hrun2]
    · intro k o hm
      rcases List.mem_cons.mp hm with hm | hm
      · injection hm with ha hb
        subst ha; subst hb
        refine ⟨.file content, ?_, by simp [treeEq]⟩
        rw [hframe2 k hd.1, hstate, if_pos rfl]
      · exact hpoint2 k o hm
    · intro m hm
      have h2 : m ≠ n ∧ m ∉ rest.map Prod.fst := by
        rw [List.map_cons] at hm
        exact ⟨fun he => hm (he ▸ List.mem_cons_self _ _),
          fun he => hm (List.mem_cons_of_mem _ he)⟩
      rw [hframe2 m h2.2, hstate, if_neg h2.1]

/-! ## Idempotence: a pass over an already-synchronized pair does nothing -/

theorem treeEq_dir_file {es : List (String × FSObj)} {b : List Nat} :
    treeEq (.dir es) (.file b) = false := by simp [treeEq]

theorem treeEq_file_dir {a : List Nat} {fs : List (String × FSObj)} :
    treeEq (.file a) (.dir fs) = false := by simp [treeEq]

theorem replaceEntry_self {fs : List (String × FSObj)} {n : String} {c : FSObj}
    (h : lookupEntry fs n = some c) : replaceEntry fs n c = fs := by
  induction fs with
  | nil => simp [lookupEntry] at h
  | cons e rest ih =>
    obtain ⟨k, o⟩ := e
    by_cases hk : k = n
    · subst hk
      simp [lookupEntry] at h
      subst h
      simp [replaceEntry]
    · simp only [lookupEntry, if_neg hk] at h
      simp [replaceEntry, hk, ih h]

theorem symmDiff_eq_nil {a b : List String} (h1 : ∀ x ∈ a, x ∈ b) (h2 : ∀ x ∈ b, x ∈ a) :
    symmDiff a b = [] := by
  simp only [symmDiff, List.append_eq_nil]
  constructor
  · rw [List.filter_eq_nil_iff]
    intro x hx
    simpa using h1 x hx
  · rw [List.filter_eq_nil_iff]
    intro x hx
    simpa using h2 x hx

theorem syncIdemPair :
    (∀ (sp rp : List String) (src rep : FSObj), treeEq src rep = true →
      ∃ tr, synchronize sp rp src rep = (tr, .ok rep) ∧
        ∀ e ∈ tr, ∃ a b, e = Event.comparing a b) ∧
    (∀ (sp rp : List String) (es : List (String × FSObj)) (rep : FSObj),
      (∀ n o, (n, o) ∈ es → ∃ p, lookupFS rep n = some p ∧ treeEq o p = true) →
      ∃ tr, syncEntries sp rp es rep = (tr, .ok rep) ∧
        ∀ e ∈ tr, ∃ a b, e = Event.comparing a b) := by
  apply synchronize.mutual_induct
  · -- synchronize on an equal pair: empty symmetric difference, silent loop
    intro sp rp src rep d rm ih heq
    simp only [rm, d] at ih
    have hdiff : symmDiff (entryNames src) (entryNames rep) = [] := by
      cases src with
      | file a =>
        cases rep with
        | file b => simp [entryNames, entriesOf, symmDiff]
        | dir fs => rw [treeEq_file_dir] at heq; exact absurd heq (by simp)
      | dir ses =>
        cases rep with
        | file b => rw [treeEq_dir_file] at heq; exact absurd heq (by simp)
        | dir fs =>
          obtain ⟨hsub, hall⟩ := treeEq_dir_iff.mp heq
          refine symmDiff_eq_nil ?_ ?_
          · intro x hx
            simp only [entryNames, entriesOf, List.mem_map] at hx ⊢
            obtain ⟨⟨k, o⟩, hm, he⟩ := hx
            subst he
            obtain ⟨p, hp, _⟩ := (entriesSub_iff.mp hsub) k o hm
            exact ⟨(k, p), lookupEntry_mem hp, rfl⟩
          · intro x hx
            simp only [entryNames, entriesOf, List.mem_map] at hx ⊢
            obtain ⟨⟨k, p⟩, hm, he⟩ := hx
            subst he
            have := hall k p hm
            obtain ⟨o, ho⟩ := Option.isSome_iff_exists.mp this
            exact ⟨(k, o), lookupEntry_mem ho, rfl⟩
    have hpoint : ∀ n o, (n, o) ∈ entriesOf src →
        ∃ p, lookupFS rep n = some p ∧ treeEq o p = true := by
      intro n o hm
      cases src with
      | file a => simp [entriesOf] at hm
      | dir ses =>
        cases rep with
        | file b => rw [treeEq_dir_file] at heq; exact absurd heq (by simp)
        | dir fs =>
          obtain ⟨hsub, _⟩ := treeEq_dir_iff.mp heq
          exact (entriesSub_iff.mp hsub) n o (by simpa [entriesOf] using hm)
    have hrm : removeDistinct rp rep ([] : List String) = ([], rep) := by
      simp [removeDistinct]
    simp only [hdiff, hrm] at ih
    obtain ⟨tr2, hrun2, hcomp2⟩ := ih hpoint
    refine ⟨Event.comparing rp sp :: tr2, ?_, ?_⟩
    · simp only [synchronize, hdiff, hrm, hrun2]
      simp
    · intro e he
      rcases List.mem_cons.mp he with he | he
      · exact ⟨rp, sp, he⟩
      · exact hcomp2 e he
  · -- empty list
    intro sp rp rep hpoint
    exact ⟨[], by simp [syncEntries], by simp⟩
  · -- directory entry: recursion on an equal pair cannot fail
    intro sp rp rep n rest ses val hl r1 e2 herr ih hpoint
    simp only [r1] at herr
    obtain ⟨p, hp, hpe⟩ := hpoint n (.dir ses) (List.mem_cons_self _ _)
    rw [hl] at hp
    simp only [Option.some.injEq] at hp
    subst hp
    obtain ⟨ctr, hcrun, _⟩ := ih hpe
    rw [hcrun] at herr
    simp at herr
  · -- directory entry: recursion returns the child unchanged
    intro sp rp rep n rest ses val hl r1 newChild hok ih1 ih2 hpoint
    simp only [r1] at hok
    obtain ⟨p, hp, hpe⟩ := hpoint n (.dir ses) (List.mem_cons_self _ _)
    rw [hl] at hp
    simp only [Option.some.injEq] at hp
    subst hp
    obtain ⟨ctr, hcrun, hccomp⟩ := ih1 hpe
    rw [hcrun] at hok
    simp only [Except.ok.injEq] at hok
    subst hok
    cases rep with
    | file c => simp [lookupFS, entriesOf, lookupEntry] at hl
    | dir fs =>
      have hlv : lookupEntry fs n = some val := by simpa [lookupFS_dir] using hl
      have hset : setChild (.dir fs) n val = .dir fs := by
        rw [setChild_dir_shape, replaceEntry_self hlv]
      rw [hset] at ih2
      obtain ⟨tr2, hrun2, hcomp2⟩ := ih2
        (fun k o hm => hpoint k o (List.mem_cons_of_mem _ hm))
      refine ⟨ctr ++ tr2, ?_, ?_⟩
      · simp only [syncEntries, hl, hcrun, hset, hrun2]
      · intro e he
        rcases List.mem_append.mp he with he | he
        · exact hccomp e he
        · exact hcomp2 e he
  · -- directory entry reported absent: contradicts equality
    intro sp rp rep n rest ses hl e2 herr hpoint
    obtain ⟨p, hp, _⟩ := hpoint n (.dir ses) (List.mem_cons_self _ _)
    rw [hl] at hp
    exact absurd hp (by simp)
  · intro sp rp rep n rest ses hl newChild hmk r1 e2 herr ih hpoint
    obtain ⟨p, hp, _⟩ := hpoint n (.dir ses) (List.mem_cons_self _ _)
    rw [hl] at hp
    exact absurd hp (by simp)
  · intro sp rp rep n rest ses hl newChild hmk r1 newChild1 hok ih1 ih2 hpoint
    obtain ⟨p, hp, _⟩ := hpoint n (.dir ses) (List.mem_cons_self _ _)
    rw [hl] at hp
    exact absurd hp (by simp)
  · -- file entry: reading an equal file cannot fail
    intro sp rp rep n rest content val hl e2 herr hpoint
    obtain ⟨p, hp, hpe⟩ := hpoint n (.file content) (List.mem_cons_self _ _)
    rw [hl] at hp
    simp only [Option.some.injEq] at hp
    subst hp
    cases val with
    | dir vfs => rw [treeEq_file_dir] at hpe; exact absurd hpe (by simp)
    | file b => rw [readBytes_file] at herr; exact absurd herr (by simp)
  · -- file entry with differing digests: contradicts equal bytes
    intro sp rp rep n rest content val hl repBytes hrd hne ih hpoint
    obtain ⟨p, hp, hpe⟩ := hpoint n (.file content) (List.mem_cons_self _ _)
    rw [hl] at hp
    simp only [Option.some.injEq] at hp
    subst hp
    cases val with
    | dir vfs => rw [treeEq_file_dir] at hpe; exact absurd hpe (by simp)
    | file b =>
      rw [readBytes_file] at hrd
      simp only [Except.ok.injEq] at hrd
      subst hrd
      rw [treeEq_file_iff] at hpe
      exact absurd (hpe ▸ rfl) hne
  · -- file entry with equal digests: skip, continue
    intro sp rp rep n rest content val hl repBytes hrd heq ih hpoint
    obtain ⟨tr2, hrun2, hcomp2⟩ := ih
      (fun k o hm => hpoint k o (List.mem_cons_of_mem _ hm))
    refine ⟨tr2, ?_, hcomp2⟩
    obtain ⟨p, hp, hpe⟩ := hpoint n (.file content) (List.mem_cons_self _ _)
    rw [hl] at hp
    simp only [Option.some.injEq] at hp
    subst hp
    cases val with
    | dir vfs => rw [treeEq_file_dir] at hpe; exact absurd hpe (by simp)
    | file b =>
      rw [readBytes_file] at hrd
      simp only [Except.ok.injEq] at hrd
      subst hrd
      simp only [syncEntries, hl, readBytes_file, if_neg heq, hrun2]
  · -- file entry reported absent: contradicts equality
    intro sp rp rep n rest content hl e2 herr hpoint
    obtain ⟨p, hp, _⟩ := hpoint n (.file content) (List.mem_cons_self _ _)
    rw [hl] at hp
    exact absurd hp (by simp)
  · intro sp rp rep n rest content hl newChild hok ih hpoint
    obtain ⟨p, hp, _⟩ := hpoint n (.file content) (List.mem_cons_self _ _)
    rw [hl] at hp
    exact absurd hp (by simp)

/-! ## Frame property of the synchronization loop -/

theorem setChild_lookup_ne {rep : FSObj} {k m : String} {c : FSObj} (h : m ≠ k) :
    lookupFS (setChild rep k c) m = lookupFS rep m := by
  cases rep with
  | file b => rfl
  | dir fs =>
    rw [setChild_dir_shape, lookupFS_dir, lookupFS_dir, lookupEntry_replaceEntry, if_neg h]

theorem syncEntries_frame :
    (∀ (sp rp : List String) (src rep : FSObj), True) ∧
    (∀ (sp rp : List String) (es : List (String × FSObj)) (rep : FSObj),
      ∀ tr rep2, syncEntries sp rp es rep = (tr, .ok rep2) →
      ∀ m, m ∉ es.map Prod.fst → lookupFS rep2 m = lookupFS rep m) := by
  apply synchronize.mutual_induct
  · intro sp rp src rep d rm ih
    trivial
  · intro sp rp rep tr rep2 hrun m hm
    simp only [syncEntries, Prod.mk.injEq, Except.ok.injEq] at hrun
    rw [← hrun.2]
  · -- dir entry, child exists, recursion fails: no ok result
    intro sp rp rep n rest ses val hl r1 e2 herr ih tr rep2 hrun m hm
    simp only [r1] at herr
    simp only [syncEntries, hl, herr, Prod.mk.injEq] at hrun
    exact absurd hrun.2 (by simp)
  · -- dir entry, child exists, recursion ok
    intro sp rp rep n rest ses val hl r1 newChild hok ih1 ih2 tr rep2 hrun m hm
    simp only [r1] at hok
    simp only [syncEntries, hl, hok, Prod.mk.injEq] at hrun
    rw [List.map_cons, List.mem_cons] at hm
    push_neg at hm
    rcases hsub : syncEntries sp rp rest (setChild rep n newChild) with ⟨tr3, res3⟩
    rw [hsub] at hrun
    have hres : res3 = Except.ok rep2 := hrun.2
    have h2 := ih2 tr3 rep2 (by rw [hsub, hres])
    rw [h2 m hm.2, setChild_lookup_ne hm.1]
  · -- dir entry, child absent, mkdir fails
    intro sp rp rep n rest ses hl e2 herr tr rep2 hrun m hm
    simp only [syncEntries, hl, herr, Prod.mk.injEq] at hrun
    exact absurd hrun.2 (by simp)
  · -- dir entry, child absent, recursion fails
    intro sp rp rep n rest ses hl newChild hmk r1 e2 herr ih tr rep2 hrun m hm
    simp only [r1] at herr
    simp only [syncEntries, hl, hmk, herr, Prod.mk.injEq] at hrun
    exact absurd hrun.2 (by simp)
  · -- dir entry, child absent, mkdir and recursion ok
    intro sp rp rep n rest ses hl newChild hmk r1 newChild1 hok ih1 ih2 tr rep2 hrun m hm
    simp only [r1] at hok
    simp only [syncEntries, hl, hmk, hok, Prod.mk.injEq] at hrun
    rw [List.map_cons, List.mem_cons] at hm
    push_neg at hm
    rcases hsub : syncEntries sp rp rest (setChild newChild n newChild1) with ⟨tr3, res3⟩
    rw [hsub] at hrun
    have hres : res3 = Except.ok rep2 := hrun.2
    have h2 := ih2 tr3 rep2 (by rw [hsub, hres])
    rw [h2 m hm.2, setChild_lookup_ne hm.1]
    -- newChild is the mkdir result: lookup at m unchanged
    cases rep with
    | file b => simp [mkdirChild] at hmk
    | dir fs =>
      simp only [mkdirChild, Except.ok.injEq] at hmk
      subst hmk
      rw [lookupFS_dir, lookupFS_dir]
      have hln : lookupEntry fs n = none := by simpa [lookupFS_dir] using hl
      rw [lookupEntry_append_new hln, if_neg hm.1]
  · -- file entry, read fails
    intro sp rp rep n rest content val hl e2 herr tr rep2 hrun m hm
    simp only [syncEntries, hl, herr, Prod.mk.injEq] at hrun
    exact absurd hrun.2 (by simp)
  · -- file entry, digests differ: overwrite then continue
    intro sp rp rep n rest content val hl repBytes hrd hne ih tr rep2 hrun m hm
    simp only [syncEntries, hl, hrd, if_pos hne, Prod.mk.injEq] at hrun
    rw [List.map_cons, List.mem_cons] at hm
    push_neg at hm
    rcases hsub : syncEntries sp rp rest (setChild rep n (.file content)) with ⟨tr3, res3⟩
    rw [hsub] at hrun
    have hres : res3 = Except.ok rep2 := hrun.2
    have h2 := ih tr3 rep2 (by rw [hsub, hres])
    rw [h2 m hm.2, setChild_lookup_ne hm.1]
  · -- file entry, digests equal: continue unchanged
    intro sp rp rep n rest content val hl repBytes hrd heq ih tr rep2 hrun m hm
    simp only [syncEntries, hl, hrd, if_neg heq] at hrun
    rw [List.map_cons, List.mem_cons] at hm
    push_neg at hm
    exact ih _ _ hrun m hm.2
  · -- file entry, copy fails
    intro sp rp rep n rest content hl e2 herr tr rep2 hrun m hm
    simp only [syncEntries, hl, herr, Prod.mk.injEq] at hrun
    exact absurd hrun.2 (by simp)
  · -- file entry, copy ok then continue
    intro sp rp rep n rest content hl newChild hok ih tr rep2 hrun m hm
    simp only [syncEntries, hl, hok, Prod.mk.injEq] at hrun
    rw [List.map_cons, List.mem_cons] at hm
    push_neg at hm
    rcases hsub : syncEntries sp rp rest newChild with ⟨tr3, res3⟩
    rw [hsub] at hrun
    have hres : res3 = Except.ok rep2 := hrun.2
    have h2 := ih tr3 rep2 (by rw [hsub, hres])
    rw [h2 m hm.2]
    cases rep with
    | file b => simp [copyNew] at hok
    | dir fs =>
      simp only [copyNew, Except.ok.injEq] at hok
      subst hok
      rw [lookupFS_dir, lookupFS_dir]
      have hln : lookupEntry fs n = none := by simpa [lookupFS_dir] using hl
      rw [lookupEntry_append_new hln, if_neg hm.1]

/-! ## Where `updating` events can come from -/

theorem level_path_eq {rp : List String} {m n : String} {q : List String}
    (h : rp ++ m :: q = rp ++ [n]) : m = n ∧ q = [] := by
  have h2 := List.append_cancel_left h
  injection h2 with h1 h3
  exact ⟨h1, h3⟩

theorem updating_not_mem_sub {sp rp : List String} {m n : String} {src rep : FSObj}
    (hmn : m ≠ n) :
    Event.updating (rp ++ [n]) ∉ (synchronize (sp ++ [m]) (rp ++ [m]) src rep).1 := by
  intro hmem
  obtain ⟨q, hpath, _⟩ := eventsPathPair.1 _ _ _ _ _ hmem
  simp only [Event.replicaPath, Option.some.injEq] at hpath
  rw [List.append_assoc] at hpath
  exact hmn (level_path_eq hpath.symm).1

theorem updating_not_mem_loop {sp rp : List String} {n : String}
    {es : List (String × FSObj)} {rep : FSObj} (h : n ∉ es.map Prod.fst) :
    Event.updating (rp ++ [n]) ∉ (syncEntries sp rp es rep).1 := by
  intro hmem
  obtain ⟨m, q, hm, hpath, _⟩ := eventsPathPair.2 _ _ _ _ _ hmem
  simp only [Event.replicaPath, Option.some.injEq] at hpath
  obtain ⟨h1, _⟩ := level_path_eq hpath.symm
  exact h (h1 ▸ hm)

theorem updating_path_ne {rp : List String} {k n : String} (h : k ≠ n) :
    Event.updating (rp ++ [k]) ≠ Event.updating (rp ++ [n]) := by
  intro he
  injection he with hp
  have := List.append_cancel_left hp
  injection this with h1 _
  exact h h1

theorem head_file_of_mem {n k : String} {a : List Nat} {obj : FSObj}
    {rest : List (String × FSObj)}
    (hd : distinctNames (((k, obj) :: rest).map Prod.fst) = true)
    (hmem : (n, FSObj.file a) ∈ (k, obj) :: rest) :
    (k = n ∧ obj = FSObj.file a ∧ n ∉ rest.map Prod.fst) ∨
      (k ≠ n ∧ (n, FSObj.file a) ∈ rest) := by
  have hd2 := distinctNames_entry_cons.mp hd
  rcases List.mem_cons.mp hmem with h | h
  · injection h with h1 h2
    exact Or.inl ⟨h1.symm, h2.symm, h1 ▸ hd2.1⟩
  · refine Or.inr ⟨fun he => hd2.1 (he ▸ mem_map_fst_of_mem h), h⟩

/-! ## One file entry of the loop: skip on equal digests, one overwrite otherwise -/

theorem syncEntries_file_entry :
    (∀ (sp rp : List String) (src rep : FSObj), True) ∧
    (∀ (sp rp : List String) (es : List (String × FSObj)) (rep : FSObj),
      ∀ n a b, distinctNames (es.map Prod.fst) = true →
      (n, FSObj.file a) ∈ es →
      lookupFS rep n = some (.file b) →
      ∀ tr res, syncEntries sp rp es rep = (tr, res) →
      (md5Hex a = md5Hex b →
        Event.updating (rp ++ [n]) ∉ tr ∧
        (∀ rep2, res = .ok rep2 → lookupFS rep2 n = some (.file b))) ∧
      (md5Hex a ≠ md5Hex b →
        ∀ rep2, res = .ok rep2 →
          tr.count (Event.updating (rp ++ [n])) = 1 ∧
          lookupFS rep2 n = some (.file a))) := by
  apply synchronize.mutual_induct
  · intro sp rp src rep d rm ih
    trivial
  · intro sp rp rep n a b hd hmem
    simp at hmem
  · -- dir head, child exists, recursion fails
    intro sp rp rep k rest ses val hl r1 e2 herr ih n a b hd hmem hlb tr res hrun
    simp only [r1] at herr
    simp only [syncEntries, hl, herr, Prod.mk.injEq] at hrun
    have hkn : k ≠ n := by
      rcases List.mem_cons.mp hmem with h | h
      · injection h with h1 h2; exact absurd h2.symm (by simp)
      · exact fun he => (distinctNames_entry_cons.mp hd).1 (he ▸ mem_map_fst_of_mem h)
    constructor
    · intro heq
      refine ⟨?_, ?_⟩
      · rw [← hrun.1]
        exact updating_not_mem_sub hkn
      · intro rep2 hok
        rw [← hrun.2] at hok
        exact absurd hok (by simp)
    · intro hne rep2 hok
      rw [← hrun.2] at hok
      exact absurd hok (by simp)
  · -- dir head, child exists, recursion ok
    intro sp rp rep k rest ses val hl r1 newChild hok ih1 ih2 n a b hd hmem hlb tr res hrun
    simp only [r1] at hok
    simp only [syncEntries, hl, hok, Prod.mk.injEq] at hrun
    have hkn : k ≠ n := by
      rcases List.mem_cons.mp hmem with h | h
      · injection h with h1 h2; exact absurd h2.symm (by simp)
      · exact fun he => (distinctNames_entry_cons.mp hd).1 (he ▸ mem_map_fst_of_mem h)
    have hmem2 : (n, FSObj.file a) ∈ rest := by
      rcases List.mem_cons.mp hmem with h | h
      · injection h with h1 h2; exact absurd h2.symm (by simp)
      · exact h
    rcases hsub : syncEntries sp rp rest (setChild rep k newChild) with ⟨tr3, res3⟩
    rw [hsub] at hrun
    have hIH := ih2 n a b (distinctNames_entry_cons.mp hd).2 hmem2
      (by rw [setChild_lookup_ne (Ne.symm hkn)]; exact hlb) tr3 res3 hsub
    constructor
    · intro heq
      obtain ⟨hnm, hst⟩ := hIH.1 heq
      refine ⟨?_, ?_⟩
      · rw [← hrun.1]
        intro hm
        rcases List.mem_append.mp hm with hm | hm
        · exact updating_not_mem_sub hkn hm
        · exact hnm hm
      · intro rep2 h2
        exact hst rep2 (by rw [← h2]; exact hrun.2)
    · intro hne rep2 h2
      obtain ⟨hcnt, hst⟩ := hIH.2 hne rep2 (by rw [← h2]; exact hrun.2)
      refine ⟨?_, hst⟩
      rw [← hrun.1, List.count_append, hcnt,
        List.count_eq_zero.mpr (updating_not_mem_sub hkn)]
  · -- dir head, child absent, mkdir fails
    intro sp rp rep k rest ses hl e2 herr n a b hd hmem hlb tr res hrun
    simp only [syncEntries, hl, herr, Prod.mk.injEq] at hrun
    have hkn : k ≠ n := by
      rcases List.mem_cons.mp hmem with h | h
      · injection h with h1 h2; exact absurd h2.symm (by simp)
      · exact fun he => (distinctNames_entry_cons.mp hd).1 (he ▸ mem_map_fst_of_mem h)
    constructor
    · intro heq
      refine ⟨?_, ?_⟩
      · rw [← hrun.1]
        intro hm
        rw [List.mem_singleton] at hm
        exact absurd hm (by simp)
      · intro rep2 h2
        rw [← hrun.2] at h2
        exact absurd h2 (by simp)
    · intro hne rep2 h2
      rw [← hrun.2] at h2
      exact absurd h2 (by simp)
  · -- dir head, child absent, recursion fails
    intro sp rp rep k rest ses hl newChild hmk r1 e2 herr ih n a b hd hmem hlb tr res hrun
    simp only [r1] at herr
    simp only [syncEntries, hl, hmk, herr, Prod.mk.injEq] at hrun
    have hkn : k ≠ n := by
      rcases List.mem_cons.mp hmem with h | h
      · injection h with h1 h2; exact absurd h2.symm (by simp)
      · exact fun he => (distinctNames_entry_cons.mp hd).1 (he ▸ mem_map_fst_of_mem h)
    constructor
    · intro heq
      refine ⟨?_, ?_⟩
      · rw [← hrun.1]
        intro hm
        rcases List.mem_cons.mp hm with hm | hm
        · exact absurd hm (by simp)
        · exact updating_not_mem_sub hkn hm
      · intro rep2 h2
        rw [← hrun.2] at h2
        exact absurd h2 (by simp)
    · intro hne rep2 h2
      rw [← hrun.2] at h2
      exact absurd h2 (by simp)
  · -- dir head, child absent, mkdir and recursion ok
    intro sp rp rep k rest ses hl newChild hmk r1 newChild1 hok ih1 ih2 n a b hd hmem hlb
      tr res hrun
    simp only [r1] at hok
    simp only [syncEntries, hl, hmk, hok, Prod.mk.injEq] at hrun
    have hkn : k ≠ n := by
      rcases List.mem_cons.mp hmem with h | h
      · injection h with h1 h2; exact absurd h2.symm (by simp)
      · exact fun he => (distinctNames_entry_cons.mp hd).1 (he ▸ mem_map_fst_of_mem h)
    have hmem2 : (n, FSObj.file a) ∈ rest := by
      rcases List.mem_cons.mp hmem with h | h
      · injection h with h1 h2; exact absurd h2.symm (by simp)
      · exact h
    have hstatelb : lookupFS (setChild newChild k newChild1) n = some (.file b) := by
      rw [setChild_lookup_ne (Ne.symm hkn)]
      cases rep with
      | file c => simp [mkdirChild] at hmk
      | dir fs =>
        simp only [mkdirChild, Except.ok.injEq] at hmk
        subst hmk
        rw [lookupFS_dir]
        have hln : lookupEntry fs k = none := by simpa [lookupFS_dir] using hl
        rw [lookupEntry_append_new hln, if_neg (Ne.symm hkn)]
        simpa [lookupFS_dir] using hlb
    rcases hsub : syncEntries sp rp rest (setChild newChild k newChild1) with ⟨tr3, res3⟩
    rw [hsub] at hrun
    have hIH := ih2 n a b (distinctNames_entry_cons.mp hd).2 hmem2 hstatelb tr3 res3 hsub
    constructor
    · intro heq
      obtain ⟨hnm, hst⟩ := hIH.1 heq
      refine ⟨?_, ?_⟩
      · rw [← hrun.1]
        intro hm
        rcases List.mem_cons.mp hm with hm | hm
        · exact absurd hm (by simp)
        · rcases List.mem_append.mp hm with hm | hm
          · exact updating_not_mem_sub hkn hm
          · exact hnm hm
      · intro rep2 h2
        exact hst rep2 (by rw [← h2]; exact hrun.2)
    · intro hne rep2 h2
      obtain ⟨hcnt, hst⟩ := hIH.2 hne rep2 (by rw [← h2]; exact hrun.2)
      refine ⟨?_, hst⟩
      rw [← hrun.1, List.count_cons_of_ne (by simp), List.count_append, hcnt,
        List.count_eq_zero.mpr (updating_not_mem_sub hkn)]
  · -- file head, replica child read fails
    intro sp rp rep k rest content val hl e2 herr n a b hd hmem hlb tr res hrun
    simp only [syncEntries, hl, herr, Prod.mk.injEq] at hrun
    constructor
    · intro heq
      refine ⟨?_, ?_⟩
      · rw [← hrun.1]; simp
      · intro rep2 h2
        rw [← hrun.2] at h2
        exact absurd h2 (by simp)
    · intro hne rep2 h2
      rw [← hrun.2] at h2
      exact absurd h2 (by simp)
  · -- file head, digests differ: overwrite
    intro sp rp rep k rest content val hl repBytes hrd hne2 ih n a b hd hmem hlb tr res hrun
    simp only [syncEntries, hl, hrd, if_pos hne2, Prod.mk.injEq] at hrun
    rcases hsub : syncEntries sp rp rest (setChild rep k (.file content)) with ⟨tr3, res3⟩
    rw [hsub] at hrun
    rcases head_file_of_mem hd hmem with ⟨hkn, hobj, hnr⟩ | ⟨hkn, hmem2⟩
    · -- this is the tracked entry: content = a, replica bytes = b
      subst hkn
      injection hobj with hca
      subst hca
      rw [hlb] at hl
      simp only [Option.some.injEq] at hl
      subst hl
      rw [readBytes_file] at hrd
      simp only [Except.ok.injEq] at hrd
      subst hrd
      constructor
      · intro heq
        exact absurd heq hne2
      · intro hne rep2 h2
        have hres3 : res3 = Except.ok rep2 := by rw [← h2]; exact hrun.2
        have hframe := syncEntries_frame.2 sp rp rest
          (setChild rep k (.file content)) tr3 rep2 (by rw [hsub, hres3]) k hnr
        have hnm : Event.updating (rp ++ [k]) ∉
            (syncEntries sp rp rest (setChild rep k (FSObj.file content))).1 :=
          updating_not_mem_loop hnr
        rw [hsub] at hnm
        constructor
        · rw [← hrun.1, List.count_cons_self, List.count_eq_zero.mpr hnm]
        · rw [hframe]
          cases rep with
          | file c => simp [lookupFS, entriesOf, lookupEntry] at hlb
          | dir fs =>
            rw [setChild_dir_shape, lookupFS_dir, lookupEntry_replaceEntry, if_pos rfl]
    · -- a sibling file is overwritten
      have hIH := ih n a b (distinctNames_entry_cons.mp hd).2 hmem2
        (by rw [setChild_lookup_ne (Ne.symm hkn)]; exact hlb) tr3 res3 hsub
      constructor
      · intro heq
        obtain ⟨hnm, hst⟩ := hIH.1 heq
        refine ⟨?_, ?_⟩
        · rw [← hrun.1]
          intro hm
          rcases List.mem_cons.mp hm with hm | hm
          · exact updating_path_ne hkn hm.symm
          · exact hnm hm
        · intro rep2 h2
          exact hst rep2 (by rw [← h2]; exact hrun.2)
      · intro hne rep2 h2
        obtain ⟨hcnt, hst⟩ := hIH.2 hne rep2 (by rw [← h2]; exact hrun.2)
        refine ⟨?_, hst⟩
        rw [← hrun.1, List.count_cons_of_ne (Ne.symm (updating_path_ne hkn)), hcnt]
  · -- file head, digests equal: skip
    intro sp rp rep k rest content val hl repBytes hrd heq2 ih n a b hd hmem hlb tr res hrun
    simp only [syncEntries, hl, hrd, if_neg heq2] at hrun
    rcases head_file_of_mem hd hmem with ⟨hkn, hobj, hnr⟩ | ⟨hkn, hmem2⟩
    · -- this is the tracked entry and nothing happens
      subst hkn
      injection hobj with hca
      subst hca
      rw [hlb] at hl
      simp only [Option.some.injEq] at hl
      subst hl
      rw [readBytes_file] at hrd
      simp only [Except.ok.injEq] at hrd
      subst hrd
      have heq : md5Hex content = md5Hex b := not_not.mp heq2
      constructor
      · intro _
        refine ⟨?_, ?_⟩
        · have hnm : Event.updating (rp ++ [k]) ∉ (syncEntries sp rp rest rep).1 :=
            updating_not_mem_loop hnr
          rw [hrun] at hnm
          exact hnm
        · intro rep2 h2
          have hframe := syncEntries_frame.2 sp rp rest rep tr rep2
            (by rw [hrun, h2]) k hnr
          rw [hframe, hlb]
      · intro hne
        exact absurd heq hne
    · -- a sibling file is skipped
      exact ih n a b (distinctNames_entry_cons.mp hd).2 hmem2 hlb tr res hrun
  · -- file head, child absent, copy fails
    intro sp rp rep k rest content hl e2 herr n a b hd hmem hlb tr res hrun
    simp only [syncEntries, hl, herr, Prod.mk.injEq] at hrun
    constructor
    · intro heq
      refine ⟨?_, ?_⟩
      · rw [← hrun.1]
        intro hm
        rw [List.mem_singleton] at hm
        exact absurd hm (by simp)
      · intro rep2 h2
        rw [← hrun.2] at h2
        exact absurd h2 (by simp)
    · intro hne rep2 h2
      rw [← hrun.2] at h2
      exact absurd h2 (by simp)
  · -- file head, child absent, copy ok
    intro sp rp rep k rest content hl newChild hok ih n a b hd hmem hlb tr res hrun
    simp only [syncEntries, hl, hok, Prod.mk.injEq] at hrun
    have hkn : k ≠ n := by
      intro he
      rw [he, hlb] at hl
      exact absurd hl (by simp)
    have hmem2 : (n, FSObj.file a) ∈ rest := by
      rcases List.mem_cons.mp hmem with h | h
      · injection h with h1 h2
        exact absurd h1.symm hkn
      · exact h
    have hstatelb : lookupFS newChild n = some (.file b) := by
      cases rep with
      | file c => simp [lookupFS, entriesOf, lookupEntry] at hlb
      | dir fs =>
        simp only [copyNew, Except.ok.injEq] at hok
        subst hok
        rw [lookupFS_dir]
        have hln : lookupEntry fs k = none := by simpa [lookupFS_dir] using hl
        rw [lookupEntry_append_new hln, if_neg (Ne.symm hkn)]
        simpa [lookupFS_dir] using hlb
    rcases hsub : syncEntries sp rp rest newChild with ⟨tr3, res3⟩
    rw [hsub] at hrun
    have hIH := ih n a b (distinctNames_entry_cons.mp hd).2 hmem2 hstatelb tr3 res3 hsub
    constructor
    · intro heq
      obtain ⟨hnm, hst⟩ := hIH.1 heq
      refine ⟨?_, ?_⟩
      · rw [← hrun.1]
        intro hm
        rcases List.mem_cons.mp hm with hm | hm
        · exact absurd hm (by simp)
        · exact hnm hm
      · intro rep2 h2
        exact hst rep2 (by rw [← h2]; exact hrun.2)
    · intro hne rep2 h2
      obtain ⟨hcnt, hst⟩ := hIH.2 hne rep2 (by rw [← h2]; exact hrun.2)
      refine ⟨?_, hst⟩
      rw [← hrun.1, List.count_cons_of_ne (by simp), hcnt]

/-! ## A nested source chain absent from the replica (spec: recursive
directory creation) -/

/-- A source subdirectory chain: `chainObj [n1, ..., nk] files` is a directory
holding only `n1`, which holds only `n2`, and so on; the innermost directory
holds the given files. -/
def chainObj : List String → List (String × List Nat) → FSObj
  | [], files => .dir (files.map fun fc => (fc.1, .file fc.2))
  | n :: rest, files => .dir [(n, chainObj rest files)]

/-- The event trace of one pass mirroring `chainObj` into an empty replica:
one `comparing` and one `creating` per level, top-down, then one `adding` per
file at the innermost level. -/
def chainTrace (sp rp : List String) : List String → List (String × List Nat) → List Event
  | [], files => Event.comparing rp sp :: files.map fun fc => Event.adding (rp ++ [fc.1])
  | n :: rest, files =>
    Event.comparing rp sp :: Event.creating (rp ++ [n]) ::
      chainTrace (sp ++ [n]) (rp ++ [n]) rest files

/-- The replica paths of the chain directories, parent before child. -/
def chainPaths (rp : List String) : List String → List (List String)
  | [] => []
  | n :: rest => (rp ++ [n]) :: chainPaths (rp ++ [n]) rest

/-- The paths of the `creating` events of a trace, in order. -/
def creatingPaths (tr : List Event) : List (List String) :=
  tr.filterMap fun e => match e with | .creating p => some p | _ => none

theorem chainObj_dir (ns : List String) (files : List (String × List Nat)) :
    ∃ ces, chainObj ns files = .dir ces := by
  cases ns <;> exact ⟨_, rfl⟩

theorem removeDistinct_emptyDir : ∀ (ds : List String) (rp : List String),
    removeDistinct rp (.dir []) ds = ([], .dir []) := by
  intro ds
  induction ds with
  | nil => intro rp; simp [removeDistinct]
  | cons n rest ih =>
    intro rp
    have hl : lookupFS (FSObj.dir []) n = none := by simp [lookupFS_dir, lookupEntry]
    simp only [removeDistinct, hl]
    exact ih rp

theorem syncEntries_addFiles : ∀ (files : List (String × List Nat)) (sp rp : List String)
    (acc : List (String × FSObj)),
    (∀ f ∈ files.map Prod.fst, lookupEntry acc f = none) →
    distinctNames (files.map Prod.fst) = true →
    syncEntries sp rp (files.map fun fc => (fc.1, FSObj.file fc.2)) (.dir acc) =
      (files.map fun fc => Event.adding (rp ++ [fc.1]),
       .ok (.dir (acc ++ files.map fun fc => (fc.1, FSObj.file fc.2)))) := by
  intro files
  induction files with
  | nil => intro sp rp acc h hd; simp [syncEntries]
  | cons fc rest ih =>
    intro sp rp acc h hd
    obtain ⟨f, c⟩ := fc
    have hlf : lookupFS (.dir acc) f = none := by
      rw [lookupFS_dir]; exact h f (by simp)
    have hrec := ih sp rp (acc ++ [(f, .file c)]) ?_ ?_
    · simp only [List.map_cons, syncEntries, hlf, copyNew, hrec]
      simp [List.append_assoc]
    · intro g hg
      have hgf : g ≠ f := by
        intro he
        have hd2 := distinctNames_cons.mp (by simpa using hd)
        exact hd2.1 (he ▸ hg)
      rw [lookupEntry_append_new (h f (by simp)), if_neg hgf]
      exact h g (by simp [hg])
    · exact (distinctNames_cons.mp (by simpa using hd)).2

theorem synchronize_chain : ∀ (ns : List String) (files : List (String × List Nat))
    (sp rp : List String), distinctNames (files.map Prod.fst) = true →
    synchronize sp rp (chainObj ns files) (.dir []) =
      (chainTrace sp rp ns files, .ok (chainObj ns files)) := by
  intro ns
  induction ns with
  | nil =>
    intro files sp rp hd
    have hnames : entryNames (chainObj [] files) = files.map Prod.fst := by
      simp [chainObj, entryNames, entriesOf]
    have hadd := syncEntries_addFiles files sp rp [] (fun f _ => rfl)
      hd
    simp only [synchronize, chainObj, entriesOf, hadd, removeDistinct_emptyDir]
    simp [chainTrace]
  | cons n rest ih =>
    intro files sp rp hd
    obtain ⟨ces, hces⟩ := chainObj_dir rest files
    have hrec := ih files (sp ++ [n]) (rp ++ [n]) hd
    rw [hces] at hrec
    have hl : lookupFS (FSObj.dir []) n = none := by simp [lookupFS_dir, lookupEntry]
    have hmk : mkdirChild (FSObj.dir []) n (rp ++ [n]) =
        .ok (.dir [(n, FSObj.dir [])]) := by simp [mkdirChild]
    simp only [synchronize, chainObj, entriesOf, removeDistinct_emptyDir, hces,
      syncEntries, hl, hmk, hrec, setChild_dir_shape, replaceEntry]
    simp [chainTrace, entryNames, entriesOf, symmDiff, removeDistinct, lookupFS_dir,
      lookupEntry, syncEntries, hces]

theorem chainTrace_creatingPaths : ∀ (ns : List String) (files : List (String × List Nat))
    (sp rp : List String), creatingPaths (chainTrace sp rp ns files) = chainPaths rp ns := by
  intro ns
  induction ns with
  | nil =>
    intro files sp rp
    simp only [chainTrace, chainPaths, creatingPaths, List.filterMap_cons]
    induction files with
    | nil => simp
    | cons fc rest ih => simpa using ih
  | cons n rest ih =>
    intro files sp rp
    simp only [chainTrace, chainPaths, creatingPaths, List.filterMap_cons]
    exact congrArg _ (ih files (sp ++ [n]) (rp ++ [n]))

theorem chainPaths_length : ∀ (ns : List String) (rp : List String),
    (chainPaths rp ns).length = ns.length := by
  intro ns
  induction ns with
  | nil => intro rp; rfl
  | cons n rest ih => intro rp; simp [chainPaths, ih]

theorem chainTrace_split : ∀ (ns : List String) (files : List (String × List Nat))
    (sp rp : List String), ∃ pre post, chainTrace sp rp ns files = pre ++ post ∧
      (∀ e ∈ pre, e.isAdding = false) ∧ (∀ e ∈ post, e.isCreating = false) := by
  intro ns
  induction ns with
  | nil =>
    intro files sp rp
    refine ⟨[Event.comparing rp sp], files.map fun fc => Event.adding (rp ++ [fc.1]),
      by simp [chainTrace], ?_, ?_⟩
    · intro e he
      rw [List.mem_singleton] at he
      subst he; rfl
    · intro e he
      obtain ⟨fc, _, he⟩ := List.mem_map.mp he
      subst he; rfl
  | cons n rest ih =>
    intro files sp rp
    obtain ⟨pre, post, hsplit, hpre, hpost⟩ := ih files (sp ++ [n]) (rp ++ [n])
    refine ⟨Event.comparing rp sp :: Event.creating (rp ++ [n]) :: pre, post,
      by simp [chainTrace, hsplit], ?_, hpost⟩
    intro e he
    rcases List.mem_cons.mp he with he | he
    · subst he; rfl
    rcases List.mem_cons.mp he with he | he
    · subst he; rfl
    · exact hpre e he

/-- Ordering of events in a two-phase trace: an event satisfying `P` (found
only in the first phase) has a smaller index than one satisfying `Q` (found
only in the second phase). -/
theorem phase_order {tr pre post : List Event} {P Q : Event → Prop} (hsplit : tr = pre ++ post)
    (hpre : ∀ e ∈ pre, ¬ Q e) (hpost : ∀ e ∈ post, ¬ P e) :
    ∀ i j (hi : i < tr.length) (hj : j < tr.length),
      P (tr.get ⟨i, hi⟩) → Q (tr.get ⟨j, hj⟩) → i < j := by
  intro i j hi hj hP hQ
  subst hsplit
  have hipre : i < pre.length := by
    by_contra hge
    push_neg at hge
    refine hpost ((pre ++ post).get ⟨i, hi⟩) ?_ hP
    rw [List.get_eq_getElem, List.getElem_append_right hge]
    exact List.getElem_mem _
  have hjpost : pre.length ≤ j := by
    by_contra hlt
    push_neg at hlt
    refine hpre ((pre ++ post).get ⟨j, hj⟩) ?_ hQ
    rw [List.get_eq_getElem, List.getElem_append_left hlt]
    exact List.getElem_mem _
  omega

/-! ## What errors a pass can raise (never the driver's precondition failure) -/

theorem sync_error_class :
    (∀ (sp rp : List String) (src rep : FSObj), ∀ e,
      (synchronize sp rp src rep).2 = .error e → ∀ m, e ≠ .assertionError m) ∧
    (∀ (sp rp : List String) (es : List (String × FSObj)) (rep : FSObj), ∀ e,
      (syncEntries sp rp es rep).2 = .error e → ∀ m, e ≠ .assertionError m) := by
  apply synchronize.mutual_induct
  · intro sp rp src rep d rm ih e herr
    simp only [rm, d] at ih
    simp only [synchronize] at herr
    exact ih e herr
  · intro sp rp rep e herr
    simp [syncEntries] at herr
  · intro sp rp rep n rest ses val hl r1 e2 herr2 ih e herr
    simp only [r1] at herr2
    simp only [syncEntries, hl, herr2, Except.error.injEq] at herr
    subst herr
    exact ih e2 herr2
  · intro sp rp rep n rest ses val hl r1 newChild hok ih1 ih2 e herr
    simp only [r1] at hok
    simp only [syncEntries, hl, hok] at herr
    exact ih2 e herr
  · intro sp rp rep n rest ses hl e2 herr2 e herr
    simp only [syncEntries, hl, herr2, Except.error.injEq] at herr
    subst herr
    cases rep with
    | file c =>
      simp only [mkdirChild, Except.error.injEq] at herr2
      subst herr2
      intro m
      simp
    | dir fs => simp [mkdirChild] at herr2
  · intro sp rp rep n rest ses hl newChild hmk r1 e2 herr2 ih e herr
    simp only [r1] at herr2
    simp only [syncEntries, hl, hmk, herr2, Except.error.injEq] at herr
    subst herr
    exact ih e2 herr2
  · intro sp rp rep n rest ses hl newChild hmk r1 newChild1 hok ih1 ih2 e herr
    simp only [r1] at hok
    simp only [syncEntries, hl, hmk, hok] at herr
    exact ih2 e herr
  · intro sp rp rep n rest content val hl e2 herr2 e herr
    simp only [syncEntries, hl, herr2, Except.error.injEq] at herr
    subst herr
    cases val with
    | file b => simp [readBytes] at herr2
    | dir vfs =>
      simp only [readBytes, Except.error.injEq] at herr2
      subst herr2
      intro m
      simp
  · intro sp rp rep n rest content val hl repBytes hrd hne ih e herr
    simp only [syncEntries, hl, hrd, if_pos hne] at herr
    exact ih e herr
  · intro sp rp rep n rest content val hl repBytes hrd heq ih e herr
    simp only [syncEntries, hl, hrd, if_neg heq] at herr
    exact ih e herr
  · intro sp rp rep n rest content hl e2 herr2 e herr
    simp only [syncEntries, hl, herr2, Except.error.injEq] at herr
    subst herr
    cases rep with
    | file c =>
      simp only [copyNew, Except.error.injEq] at herr2
      subst herr2
      intro m
      simp
    | dir fs => simp [copyNew] at herr2
  · intro sp rp rep n rest content hl newChild hok ih e herr
    simp only [syncEntries, hl, hok] at herr
    exact ih e herr

/-! ## The driver: dispatch and the polling loop -/

theorem mainRun_none (sp rp : List String) (ro : Option FSObj) (poll cycles : Nat) :
    mainRun sp rp none ro poll cycles =
      ([], .error (.assertionError "Path to the source folder is incorrect")) := rfl

theorem mainRun_some_poll0 (sp rp : List String) (src : FSObj) (ro : Option FSObj)
    (cycles : Nat) :
    mainRun sp rp (some src) ro 0 cycles = synchronize sp rp src (ro.getD (.dir [])) := by
  cases ro <;> rfl

theorem mainRun_some_pollPos (sp rp : List String) (src : FSObj) (ro : Option FSObj)
    (poll cycles : Nat) (hp : poll ≠ 0) :
    mainRun sp rp (some src) ro poll cycles =
      pollLoop sp rp src poll cycles (ro.getD (.dir [])) := by
  have hb : (poll == 0) = false := by simpa using hp
  cases ro <;> simp [mainRun, hb, Option.getD]

theorem pollLoop_succ (sp rp : List String) (src : FSObj) (poll k : Nat) (rep : FSObj)
    (evs : List Event) (rep1 : FSObj) (hpass : synchronize sp rp src rep = (evs, .ok rep1)) :
    pollLoop sp rp src poll (k + 1) rep =
      (evs ++ Event.sleeping poll :: (pollLoop sp rp src poll k rep1).1,
       (pollLoop sp rp src poll k rep1).2) := by
  simp only [pollLoop, hpass]

theorem pollLoop_no_assert : ∀ (cycles : Nat) (sp rp : List String) (src rep : FSObj)
    (poll : Nat) (e : FSError), (pollLoop sp rp src poll cycles rep).2 = .error e →
    ∀ m, e ≠ .assertionError m := by
  intro cycles
  induction cycles with
  | zero => intro sp rp src rep poll e herr; simp [pollLoop] at herr
  | succ k ih =>
    intro sp rp src rep poll e herr
    rcases hpass : synchronize sp rp src rep with ⟨tr1, res1⟩
    cases res1 with
    | error e2 =>
      simp only [pollLoop, hpass, Except.error.injEq] at herr
      subst herr
      exact sync_error_class.1 sp rp src rep e2 (by rw [hpass])
    | ok rep1 =>
      simp only [pollLoop, hpass] at herr
      exact ih sp rp src rep1 poll e herr

theorem mutPath_eq_replicaPath {e : Event} {p : List String}
    (h : Event.mutPath e = some p) : Event.replicaPath e = some p := by
  cases e <;> simp_all [Event.mutPath, Event.replicaPath]

theorem synchronize_mut_events {sp rp : List String} {src rep : FSObj} :
    ∀ e ∈ (synchronize sp rp src rep).1, ∀ p, Event.mutPath e = some p →
      ∃ n q, p = rp ++ n :: q := by
  intro e he p hp
  obtain ⟨q, hpath, hne⟩ := eventsPathPair.1 sp rp src rep e he
  rw [mutPath_eq_replicaPath hp] at hpath
  simp only [Option.some.injEq] at hpath
  cases q with
  | nil => exact absurd rfl (hne (by simp [hp]))
  | cons n q2 => exact ⟨n, q2, hpath⟩

theorem pollLoop_mut_events : ∀ (cycles : Nat) (sp rp : List String) (src rep : FSObj)
    (poll : Nat), ∀ e ∈ (pollLoop sp rp src poll cycles rep).1,
    ∀ p, Event.mutPath e = some p → ∃ n q, p = rp ++ n :: q := by
  intro cycles
  induction cycles with
  | zero => intro sp rp src rep poll e he; simp [pollLoop] at he
  | succ k ih =>
    intro sp rp src rep poll e he p hp
    rcases hpass : synchronize sp rp src rep with ⟨tr1, res1⟩
    cases res1 with
    | error e2 =>
      simp only [pollLoop, hpass] at he
      exact synchronize_mut_events e (by rw [hpass]; exact he) p hp
    | ok rep1 =>
      simp only [pollLoop, hpass, List.mem_append, List.mem_cons] at he
      rcases he with he | he | he
      · exact synchronize_mut_events e (by rw [hpass]; exact he) p hp
      · subst he; simp [Event.mutPath] at hp
      · exact ih sp rp src rep1 poll e he p hp

/-! ## The claims -/

/-- Claim C1, as stated, is false on the code: with both roots directories, a
name held by a directory in the source and by a file in the replica is in
neither side's exclusive name set, so the pass removes nothing, creates
nothing, and recurses into the file as if it were a directory — the pass
completes with the replica still holding the file, not equal to the source. -/
theorem claim_C1_counterexample :
    synchronize [] [] (.dir [("x", .dir [])]) (.dir [("x", .file [49])]) =
      ([Event.comparing [] [], Event.comparing ["x"] ["x"]],
       .ok (.dir [("x", .file [49])])) ∧
    treeEq (.dir [("x", .dir [])]) (.dir [("x", .file [49])]) = false := by
  constructor
  · simp [synchronize, syncEntries, removeDistinct, symmDiff, entryNames, entriesOf,
      lookupFS, lookupEntry, setChild, replaceEntry]
  · simp [treeEq, entriesSub, lookupEntry]

/-- Claim C1 (amended): for initial source and replica trees whose roots are
directories, both well-formed (no duplicate names — true of every real
directory), one `synchronize` pass makes the replica's recursive entry-name
set and file contents equal to the source's, provided the trees are
compatible: no name is a file on one side and a directory on the other at any
matched level, and matched files with equal MD5 digests have equal bytes. -/
theorem claim_C1_amended (sp rp : List String) (ses fs : List (String × FSObj))
    (hwfs : wfFS (.dir ses) = true) (hwfr : wfFS (.dir fs) = true)
    (hcompat : compatible (.dir ses) (.dir fs) = true) :
    ∃ fs2 tr, synchronize sp rp (.dir ses) (.dir fs) = (tr, .ok (.dir fs2)) ∧
      treeEq (.dir ses) (.dir fs2) = true := by
  obtain ⟨fs2, tr, hrun, _, heq⟩ :=
    syncCorrectPair.1 sp rp (.dir ses) (.dir fs) ses fs rfl rfl hwfs hwfr hcompat
  exact ⟨fs2, tr, hrun, heq⟩

/-- Concrete instance of the amended claim C1. -/
theorem claim_C1_witness :
    wfFS (.dir [("a", .file [1]), ("d", .dir [("b", .file [2])])]) = true ∧
    wfFS (.dir [("d", .dir []), ("z", .file [9])]) = true ∧
    compatible (.dir [("a", .file [1]), ("d", .dir [("b", .file [2])])])
      (.dir [("d", .dir []), ("z", .file [9])]) = true ∧
    ∃ fs2 tr, synchronize ["s"] ["r"]
        (.dir [("a", .file [1]), ("d", .dir [("b", .file [2])])])
        (.dir [("d", .dir []), ("z", .file [9])]) = (tr, .ok (.dir fs2)) ∧
      treeEq (.dir [("a", .file [1]), ("d", .dir [("b", .file [2])])]) (.dir fs2) = true := by
  have h1 : wfFS (.dir [("a", .file [1]), ("d", .dir [("b", .file [2])])]) = true := by
    simp [wfFS, wfEntries, distinctNames]
  have h2 : wfFS (.dir [("d", .dir []), ("z", .file [9])]) = true := by
    simp [wfFS, wfEntries, distinctNames]
  have h3 : compatible (.dir [("a", .file [1]), ("d", .dir [("b", .file [2])])])
      (.dir [("d", .dir []), ("z", .file [9])]) = true := by
    simp [compatible, compatEntries, lookupEntry]
  exact ⟨h1, h2, h3, claim_C1_amended ["s"] ["r"] _ _ h1 h2 h3⟩

/-- Claim C2, as stated, is false on the code: `main` only asserts
`source_path.exists()`.  A source root that exists but is a plain file passes
the assertion; the driver proceeds, `glob` on the file yields no entries, and
the pass deletes every replica entry — no precondition failure, and the
replica is mutated. -/
theorem claim_C2_counterexample :
    mainRun ["s"] ["r"] (some (.file [])) (some (.dir [("a", .file [49])])) 0 0 =
      ([Event.comparing ["r"] ["s"], Event.removing ["r", "a"]], .ok (.dir [])) := by
  simp [mainRun, synchronize, syncEntries, removeDistinct, symmDiff, entryNames,
    entriesOf, lookupFS, lookupEntry, eraseChild, removeEntry]

/-- Claim C2 (amended): the driver aborts with its precondition failure
(`AssertionError`, before the replica is created or touched and before any
pass runs) exactly when the source root path does not exist; when the source
path exists — even as a non-directory — no precondition failure is ever
raised and the synchronization pass proceeds. -/
theorem claim_C2_amended (sp rp : List String) (ro : Option FSObj) (poll cycles : Nat) :
    (mainRun sp rp none ro poll cycles =
      ([], .error (.assertionError "Path to the source folder is incorrect"))) ∧
    (∀ src e, (mainRun sp rp (some src) ro poll cycles).2 = .error e →
      ∀ m, e ≠ .assertionError m) := by
  refine ⟨mainRun_none sp rp ro poll cycles, ?_⟩
  intro src e herr m
  by_cases hp : poll = 0
  · subst hp
    rw [mainRun_some_poll0] at herr
    exact sync_error_class.1 _ _ _ _ e herr m
  · rw [mainRun_some_pollPos _ _ _ _ _ _ hp] at herr
    exact pollLoop_no_assert _ _ _ _ _ _ e herr m

/-- Concrete instance of the amended claim C2: a missing source aborts; an
existing source with a file replica root fails with a different error class,
not the precondition failure. -/
theorem claim_C2_witness :
    (mainRun ["s"] ["r"] none (some (.file [])) 0 0 =
      ([], .error (.assertionError "Path to the source folder is incorrect"))) ∧
    FSError.notADirectoryError ["r", "x"] ≠ FSError.assertionError "boom" := by
  constructor
  · exact (claim_C2_amended ["s"] ["r"] (some (.file [])) 0 0).1
  · refine (claim_C2_amended ["s"] ["r"] (some (.file [])) 0 0).2
      (.dir [("x", .dir [])]) (.notADirectoryError ["r", "x"]) ?_ "boom"
    simp [mainRun, synchronize, syncEntries, removeDistinct, symmDiff, entryNames,
      entriesOf, lookupFS, lookupEntry, mkdirChild]

/-- Claim C3: within one directory level of a pass, every removal of an entry
named in the symmetric difference is emitted before any create/copy/update at
that level; a name `X` present in the replica but absent from the source is
removed (its `removing` event is in the trace, and when the pass completes
`X` no longer exists in the replica), and no `creating`, `adding` or
`updating` event for `X` is emitted anywhere in the pass — in particular none
after its removal. -/
theorem claim_C3 (sp rp : List String) (src rep : FSObj) (tr : List Event)
    (res : Except FSError FSObj) (X : String)
    (hrun : synchronize sp rp src rep = (tr, res))
    (hXrep : X ∈ entryNames rep) (hXsrc : X ∉ entryNames src) :
    (∀ i j (hi : i < tr.length) (hj : j < tr.length),
      removalAt rp (tr.get ⟨i, hi⟩) → createOrUpdateAt rp (tr.get ⟨j, hj⟩) → i < j) ∧
    Event.removing (rp ++ [X]) ∈ tr ∧
    (Event.creating (rp ++ [X]) ∉ tr ∧ Event.adding (rp ++ [X]) ∉ tr ∧
      Event.updating (rp ++ [X]) ∉ tr) ∧
    (∀ rep2, res = .ok rep2 → lookupFS rep2 X = none) := by
  have h0 := hrun.symm
  simp only [synchronize] at h0
  have htr : tr = Event.comparing rp sp ::
      ((removeDistinct rp rep (symmDiff (entryNames src) (entryNames rep))).1 ++
       (syncEntries sp rp (entriesOf src)
         (removeDistinct rp rep (symmDiff (entryNames src) (entryNames rep))).2).1) :=
    congrArg Prod.fst h0
  have hres : res = (syncEntries sp rp (entriesOf src)
      (removeDistinct rp rep (symmDiff (entryNames src) (entryNames rep))).2).2 :=
    congrArg Prod.snd h0
  have hXsd : X ∈ symmDiff (entryNames src) (entryNames rep) :=
    symmDiff_mem.mpr (Or.inr ⟨hXrep, hXsrc⟩)
  have hXsome : (lookupFS rep X).isSome = true :=
    lookupEntry_isSome_iff.mpr hXrep
  have hnotin : ∀ e, Event.replicaPath e = some (rp ++ [X]) →
      e ∉ (syncEntries sp rp (entriesOf src)
        (removeDistinct rp rep (symmDiff (entryNames src) (entryNames rep))).2).1 := by
    intro e hpath hmem
    obtain ⟨m, q, hm, hpath2, _⟩ := eventsPathPair.2 _ _ _ _ _ hmem
    rw [hpath] at hpath2
    simp only [Option.some.injEq] at hpath2
    obtain ⟨h1, _⟩ := level_path_eq hpath2.symm
    exact hXsrc (h1 ▸ hm)
  refine ⟨?_, ?_, ⟨?_, ?_, ?_⟩, ?_⟩
  · intro i j hi hj hri hcj
    refine @phase_order tr
      (Event.comparing rp sp ::
        (removeDistinct rp rep (symmDiff (entryNames src) (entryNames rep))).1)
      (syncEntries sp rp (entriesOf src)
        (removeDistinct rp rep (symmDiff (entryNames src) (entryNames rep))).2).1
      (removalAt rp) (createOrUpdateAt rp) (by rw [htr]; simp) ?_ ?_ i j hi hj hri hcj
    · intro e he hQ
      rcases List.mem_cons.mp he with he | he
      · subst he
        obtain ⟨k, hk | hk | hk⟩ := hQ <;> simp at hk
      · obtain ⟨k2, _, he2⟩ := removeDistinct_events_shape _ _ _ e he
        subst he2
        obtain ⟨k, hk | hk | hk⟩ := hQ <;> simp at hk
    · intro e he hP
      obtain ⟨k2, hk2⟩ := hP
      subst hk2
      obtain ⟨m, q, hm, hpath, hq⟩ := eventsPathPair.2 _ _ _ _ _ he
      simp only [Event.replicaPath, Option.some.injEq] at hpath
      obtain ⟨h1, h2⟩ := level_path_eq hpath.symm
      exact hq rfl h2
  · rw [htr]
    exact List.mem_cons_of_mem _ (List.mem_append_left _
      (removeDistinct_events_mem _ _ _ X hXsd hXsome))
  · rw [htr]
    intro hmem
    rcases List.mem_cons.mp hmem with h | h
    · simp at h
    rcases List.mem_append.mp h with h | h
    · obtain ⟨k2, _, he2⟩ := removeDistinct_events_shape _ _ _ _ h
      simp at he2
    · exact hnotin (Event.creating (rp ++ [X])) rfl h
  · rw [htr]
    intro hmem
    rcases List.mem_cons.mp hmem with h | h
    · simp at h
    rcases List.mem_append.mp h with h | h
    · obtain ⟨k2, _, he2⟩ := removeDistinct_events_shape _ _ _ _ h
      simp at he2
    · exact hnotin (Event.adding (rp ++ [X])) rfl h
  · rw [htr]
    intro hmem
    rcases List.mem_cons.mp hmem with h | h
    · simp at h
    rcases List.mem_append.mp h with h | h
    · obtain ⟨k2, _, he2⟩ := removeDistinct_events_shape _ _ _ _ h
      simp at he2
    · exact hnotin (Event.updating (rp ++ [X])) rfl h
  · intro rep2 hok
    rw [hres] at hok
    have hframe := syncEntries_frame.2 sp rp (entriesOf src)
      (removeDistinct rp rep (symmDiff (entryNames src) (entryNames rep))).2 _ rep2
      (by rw [← hok]) X hXsrc
    rw [hframe, removeDistinct_lookup, if_pos hXsd]

/-- Concrete instance of claim C3: a stale replica entry is removed. -/
theorem claim_C3_witness :
    synchronize ["s"] ["r"] (.dir []) (.dir [("x", .file [1])]) =
      ([Event.comparing ["r"] ["s"], Event.removing ["r", "x"]], .ok (.dir [])) ∧
    "x" ∈ entryNames (.dir [("x", .file [1])]) ∧
    "x" ∉ entryNames (FSObj.dir []) ∧
    Event.removing (["r"] ++ ["x"]) ∈
      [Event.comparing ["r"] ["s"], Event.removing ["r", "x"]] ∧
    lookupFS (FSObj.dir []) "x" = none := by
  have hrun : synchronize ["s"] ["r"] (.dir []) (.dir [("x", .file [1])]) =
      ([Event.comparing ["r"] ["s"], Event.removing ["r", "x"]], .ok (.dir [])) := by
    simp [synchronize, syncEntries, removeDistinct, symmDiff, entryNames, entriesOf,
      lookupFS, lookupEntry, eraseChild, removeEntry]
  have h1 : "x" ∈ entryNames (.dir [("x", .file [1])]) := by
    simp [entryNames, entriesOf]
  have h2 : "x" ∉ entryNames (FSObj.dir []) := by
    simp [entryNames, entriesOf]
  have h := claim_C3 ["s"] ["r"] _ _ _ _ "x" hrun h1 h2
  exact ⟨hrun, h1, h2, h.2.1, h.2.2.2 _ rfl⟩

/-- Claim C6: a file present in both trees at the same path with identical
bytes produces no `updating` event for that path anywhere in the pass, and
the replica entry is left as it was (the file is not rewritten) — the model
carries no timestamps or metadata, so equality of bytes is the only input to
the decision, exactly as in the code, which compares MD5 digests of the bytes
and nothing else. -/
theorem claim_C6 (sp rp : List String) (src rep : FSObj) (n : String) (a : List Nat)
    (hdist : distinctNames (entryNames src) = true)
    (hs : lookupFS src n = some (.file a)) (hr : lookupFS rep n = some (.file a))
    (tr : List Event) (res : Except FSError FSObj)
    (hrun : synchronize sp rp src rep = (tr, res)) :
    Event.updating (rp ++ [n]) ∉ tr ∧
    (∀ rep2, res = .ok rep2 → lookupFS rep2 n = some (.file a)) := by
  have h0 := hrun.symm
  simp only [synchronize] at h0
  have htr : tr = Event.comparing rp sp ::
      ((removeDistinct rp rep (symmDiff (entryNames src) (entryNames rep))).1 ++
       (syncEntries sp rp (entriesOf src)
         (removeDistinct rp rep (symmDiff (entryNames src) (entryNames rep))).2).1) :=
    congrArg Prod.fst h0
  have hres : res = (syncEntries sp rp (entriesOf src)
      (removeDistinct rp rep (symmDiff (entryNames src) (entryNames rep))).2).2 :=
    congrArg Prod.snd h0
  have hnsd : n ∉ symmDiff (entryNames src) (entryNames rep) := by
    intro hmem
    have hs2 : (lookupFS src n).isSome = true := by rw [hs]; rfl
    have hr2 : (lookupFS rep n).isSome = true := by rw [hr]; rfl
    have hnsrc : n ∈ entryNames src := lookupEntry_isSome_iff.mp hs2
    have hnrep : n ∈ entryNames rep := lookupEntry_isSome_iff.mp hr2
    rcases symmDiff_mem.mp hmem with ⟨_, h⟩ | ⟨_, h⟩
    · exact h hnrep
    · exact h hnsrc
  have hlook1 : lookupFS (removeDistinct rp rep
      (symmDiff (entryNames src) (entryNames rep))).2 n = some (.file a) := by
    rw [removeDistinct_lookup, if_neg hnsd]
    exact hr
  have hmem : (n, FSObj.file a) ∈ entriesOf src := lookupEntry_mem hs
  have hIH := syncEntries_file_entry.2 sp rp (entriesOf src)
    (removeDistinct rp rep (symmDiff (entryNames src) (entryNames rep))).2
    n a a hdist hmem hlook1 _ _ rfl
  obtain ⟨hnm, hst⟩ := hIH.1 rfl
  constructor
  · rw [htr]
    intro hmemtr
    rcases List.mem_cons.mp hmemtr with h | h
    · simp at h
    rcases List.mem_append.mp h with h | h
    · obtain ⟨k2, _, he2⟩ := removeDistinct_events_shape _ _ _ _ h
      simp at he2
    · exact hnm h
  · intro rep2 hok
    rw [hres] at hok
    exact hst rep2 hok

/-- Concrete instance of claim C6. -/
theorem claim_C6_witness :
    distinctNames (entryNames (.dir [("f", .file [7])])) = true ∧
    lookupFS (.dir [("f", .file [7])]) "f" = some (.file [7]) ∧
    synchronize ["s"] ["r"] (.dir [("f", .file [7])]) (.dir [("f", .file [7])]) =
      ([Event.comparing ["r"] ["s"]], .ok (.dir [("f", .file [7])])) ∧
    Event.updating (["r"] ++ ["f"]) ∉ [Event.comparing ["r"] ["s"]] ∧
    lookupFS (.dir [("f", .file [7])]) "f" = some (.file [7]) := by
  have hd : distinctNames (entryNames (.dir [("f", .file [7])])) = true := by
    simp [entryNames, entriesOf, distinctNames]
  have hlk : lookupFS (.dir [("f", .file [7])]) "f" = some (.file [7]) := by
    simp [lookupFS, entriesOf, lookupEntry]
  have hrun : synchronize ["s"] ["r"] (.dir [("f", .file [7])]) (.dir [("f", .file [7])]) =
      ([Event.comparing ["r"] ["s"]], .ok (.dir [("f", .file [7])])) := by
    simp [synchronize, syncEntries, removeDistinct, symmDiff, entryNames, entriesOf,
      lookupFS, lookupEntry, readBytes]
  have h := claim_C6 ["s"] ["r"] _ _ "f" [7] hd hlk hlk _ _ hrun
  exact ⟨hd, hlk, hrun, h.1, h.2 _ rfl⟩

/-- Claim C4: a pass over a replica that already equals the source (the state
every converged pass leaves behind) performs zero mutating actions — the
result is the replica object unchanged, and every emitted event is the
per-level `comparing` line: no removing, creating, adding or updating event
is emitted. -/
theorem claim_C4 (sp rp : List String) (s r : FSObj) (h : treeEq s r = true) :
    ∃ tr, synchronize sp rp s r = (tr, .ok r) ∧
      ∀ e ∈ tr, ∃ a b, e = Event.comparing a b :=
  syncIdemPair.1 sp rp s r h

/-- Concrete instance of claim C4. -/
theorem claim_C4_witness :
    treeEq (.dir [("a", .file [1])]) (.dir [("a", .file [1])]) = true ∧
    ∃ tr, synchronize ["s"] ["r"] (.dir [("a", .file [1])]) (.dir [("a", .file [1])]) =
        (tr, .ok (.dir [("a", .file [1])])) ∧
      ∀ e ∈ tr, ∃ a b, e = Event.comparing a b := by
  have h : treeEq (.dir [("a", .file [1])]) (.dir [("a", .file [1])]) = true := by
    simp [treeEq, entriesSub, lookupEntry]
  exact ⟨h, claim_C4 ["s"] ["r"] _ _ h⟩

/-- Two distinct 128-byte messages with the same MD5 digest (the classic
Wang-attack collision pair); both hash to
`79054025255fb1a26e4bc422aef54eb4`. -/
def collisionA : List Nat :=
  [209, 49, 221, 2, 197, 230, 238, 196, 105, 61, 154, 6, 152, 175, 249, 92,
   47, 202, 181, 135, 18, 70, 126, 171, 64, 4, 88, 62, 184, 251, 127, 137,
   85, 173, 52, 6, 9, 244, 179, 2, 131, 228, 136, 131, 37, 113, 65, 90,
   8, 81, 37, 232, 247, 205, 201, 159, 217, 29, 189, 242, 128, 55, 60, 91,
   216, 130, 62, 49, 86, 52, 143, 91, 174, 109, 172, 212, 54, 201, 25, 198,
   221, 83, 226, 180, 135, 218, 3, 253, 2, 57, 99, 6, 210, 72, 205, 160,
   233, 159, 51, 66, 15, 87, 126, 232, 206, 84, 182, 112, 128, 168, 13, 30,
   198, 152, 33, 188, 182, 168, 131, 147, 150, 249, 101, 43, 111, 247, 42, 112]

def collisionB : List Nat :=
  [209, 49, 221, 2, 197, 230, 238, 196, 105, 61, 154, 6, 152, 175, 249, 92,
   47, 202, 181, 7, 18, 70, 126, 171, 64, 4, 88, 62, 184, 251, 127, 137,
   85, 173, 52, 6, 9, 244, 179, 2, 131, 228, 136, 131, 37, 241, 65, 90,
   8, 81, 37, 232, 247, 205, 201, 159, 217, 29, 189, 114, 128, 55, 60, 91,
   216, 130, 62, 49, 86, 52, 143, 91, 174, 109, 172, 212, 54, 201, 25, 198,
   221, 83, 226, 52, 135, 218, 3, 253, 2, 57, 99, 6, 210, 72, 205, 160,
   233, 159, 51, 66, 15, 87, 126, 232, 206, 84, 182, 112, 128, 40, 13, 30,
   198, 152, 33, 188, 182, 168, 131, 147, 150, 249, 101, 171, 111, 247, 42, 112]

set_option maxRecDepth 100000 in
theorem collision_md5_eq : md5Hex collisionA = md5Hex collisionB := by decide

set_option maxRecDepth 100000 in
theorem collision_bytes_ne : collisionA ≠ collisionB := by decide

/-- Claim C5, as stated, is false on the code: the pass compares MD5 digests,
not bytes.  Two files whose contents are the classic MD5 collision pair have
different bytes but equal digests, so the pass emits no `updating` event and
leaves the replica's bytes different from the source's. -/
theorem claim_C5_counterexample :
    collisionA ≠ collisionB ∧
    synchronize [] [] (.dir [("f", .file collisionA)]) (.dir [("f", .file collisionB)]) =
      ([Event.comparing [] []], .ok (.dir [("f", .file collisionB)])) := by
  refine ⟨collision_bytes_ne, ?_⟩
  have h := collision_md5_eq
  simp [synchronize, syncEntries, removeDistinct, symmDiff, entryNames, entriesOf,
    lookupFS, lookupEntry, readBytes, h]

/-- Claim C5 (amended): a file present in both trees at the same path whose
MD5 hex digests differ (which the code uses as its change test; for files
outside an MD5 collision this is exactly "bytes differ") gets exactly one
`updating` event in the whole pass, and after a completed pass the replica
file holds the source bytes. -/
theorem claim_C5_amended (sp rp : List String) (src rep : FSObj) (n : String)
    (a b : List Nat) (hdist : distinctNames (entryNames src) = true)
    (hs : lookupFS src n = some (.file a)) (hr : lookupFS rep n = some (.file b))
    (hne : md5Hex a ≠ md5Hex b) (tr : List Event) (rep2 : FSObj)
    (hrun : synchronize sp rp src rep = (tr, .ok rep2)) :
    tr.count (Event.updating (rp ++ [n])) = 1 ∧ lookupFS rep2 n = some (.file a) := by
  have h0 := hrun.symm
  simp only [synchronize] at h0
  have htr : tr = Event.comparing rp sp ::
      ((removeDistinct rp rep (symmDiff (entryNames src) (entryNames rep))).1 ++
       (syncEntries sp rp (entriesOf src)
         (removeDistinct rp rep (symmDiff (entryNames src) (entryNames rep))).2).1) :=
    congrArg Prod.fst h0
  have hres : Except.ok rep2 = (syncEntries sp rp (entriesOf src)
      (removeDistinct rp rep (symmDiff (entryNames src) (entryNames rep))).2).2 :=
    congrArg Prod.snd h0
  have hnsd : n ∉ symmDiff (entryNames src) (entryNames rep) := by
    intro hmem
    have hs2 : (lookupFS src n).isSome = true := by rw [hs]; rfl
    have hr2 : (lookupFS rep n).isSome = true := by rw [hr]; rfl
    have hnsrc : n ∈ entryNames src := lookupEntry_isSome_iff.mp hs2
    have hnrep : n ∈ entryNames rep := lookupEntry_isSome_iff.mp hr2
    rcases symmDiff_mem.mp hmem with ⟨_, h⟩ | ⟨_, h⟩
    · exact h hnrep
    · exact h hnsrc
  have hlook1 : lookupFS (removeDistinct rp rep
      (symmDiff (entryNames src) (entryNames rep))).2 n = some (.file b) := by
    rw [removeDistinct_lookup, if_neg hnsd]
    exact hr
  have hmem : (n, FSObj.file a) ∈ entriesOf src := lookupEntry_mem hs
  have hIH := syncEntries_file_entry.2 sp rp (entriesOf src)
    (removeDistinct rp rep (symmDiff (entryNames src) (entryNames rep))).2
    n a b hdist hmem hlook1 _ _ rfl
  obtain ⟨hcnt, hst⟩ := hIH.2 hne rep2 hres.symm
  refine ⟨?_, hst⟩
  rw [htr, List.count_cons_of_ne (by simp), List.count_append, hcnt,
    List.count_eq_zero.mpr ?_]
  intro hm
  obtain ⟨k2, _, he2⟩ := removeDistinct_events_shape _ _ _ _ hm
  simp at he2

/-- Concrete instance of the amended claim C5: one-byte files with different
digests produce exactly one `updating` event and the bytes are copied. -/
theorem claim_C5_witness :
    md5Hex [49] ≠ md5Hex [50] ∧
    (List.count (Event.updating (["r"] ++ ["f"]))
        [Event.comparing ["r"] ["s"], Event.updating ["r", "f"]] = 1 ∧
      lookupFS (.dir [("f", .file [49])]) "f" = some (.file [49])) := by
  have hne : md5Hex [49] ≠ md5Hex [50] := by decide
  have hrun : synchronize ["s"] ["r"] (.dir [("f", .file [49])]) (.dir [("f", .file [50])]) =
      ([Event.comparing ["r"] ["s"], Event.updating ["r", "f"]],
       .ok (.dir [("f", .file [49])])) := by
    have h2 : (md5Hex [49] = md5Hex [50]) = False := by
      simp only [eq_iff_iff, iff_false]
      exact hne
    simp [synchronize, syncEntries, removeDistinct, symmDiff, entryNames, entriesOf,
      lookupFS, lookupEntry, readBytes, setChild, replaceEntry, h2]
  have hd : distinctNames (entryNames (.dir [("f", .file [49])])) = true := by
    simp [entryNames, entriesOf, distinctNames]
  have hlks : lookupFS (.dir [("f", .file [49])]) "f" = some (.file [49]) := by
    simp [lookupFS, entriesOf, lookupEntry]
  have hlkr : lookupFS (.dir [("f", .file [50])]) "f" = some (.file [50]) := by
    simp [lookupFS, entriesOf, lookupEntry]
  exact ⟨hne, claim_C5_amended ["s"] ["r"] _ _ "f" [49] [50] hd hlks hlkr hne _ _ hrun⟩

/-- Claim C7: mirroring a source chain of nested directories, entirely absent
from the replica, emits exactly one `creating` event per level, parent before
child (the `creating` paths are exactly the chain paths, top-down, one per
level), and every file-copy (`adding`) event comes after every `creating`
event. -/
theorem claim_C7 (sp rp : List String) (ns : List String)
    (files : List (String × List Nat)) (hd : distinctNames (files.map Prod.fst) = true) :
    synchronize sp rp (chainObj ns files) (.dir []) =
      (chainTrace sp rp ns files, .ok (chainObj ns files)) ∧
    creatingPaths (chainTrace sp rp ns files) = chainPaths rp ns ∧
    (chainPaths rp ns).length = ns.length ∧
    (∀ i j (hi : i < (chainTrace sp rp ns files).length)
        (hj : j < (chainTrace sp rp ns files).length),
      ((chainTrace sp rp ns files).get ⟨i, hi⟩).isCreating = true →
      ((chainTrace sp rp ns files).get ⟨j, hj⟩).isAdding = true → i < j) := by
  refine ⟨synchronize_chain ns files sp rp hd, chainTrace_creatingPaths ns files sp rp,
    chainPaths_length ns rp, ?_⟩
  obtain ⟨pre, post, hsplit, hpre, hpost⟩ := chainTrace_split ns files sp rp
  intro i j hi hj hci haj
  refine @phase_order (chainTrace sp rp ns files) pre post
    (fun e => e.isCreating = true) (fun e => e.isAdding = true) hsplit ?_ ?_ i j hi hj hci haj
  · intro e he h2
    rw [hpre e he] at h2
    exact absurd h2 (by simp)
  · intro e he h2
    rw [hpost e he] at h2
    exact absurd h2 (by simp)

/-- Concrete instance of claim C7, two levels deep with one file. -/
theorem claim_C7_witness :
    distinctNames ([("f", [1])].map (Prod.fst (α := String) (β := List Nat))) = true ∧
    synchronize ["s"] ["r"] (chainObj ["a", "b"] [("f", [1])]) (.dir []) =
      (chainTrace ["s"] ["r"] ["a", "b"] [("f", [1])],
       .ok (chainObj ["a", "b"] [("f", [1])])) ∧
    creatingPaths (chainTrace ["s"] ["r"] ["a", "b"] [("f", [1])]) =
      chainPaths ["r"] ["a", "b"] ∧
    (chainPaths ["r"] ["a", "b"]).length = 2 := by
  have hd : distinctNames ([("f", [1])].map (Prod.fst (α := String) (β := List Nat))) =
      true := by decide
  have h := claim_C7 ["s"] ["r"] ["a", "b"] [("f", [1])] hd
  exact ⟨hd, h.1, h.2.1, h.2.2.1⟩

/-- Claim C8: with poll interval 0 the driver runs the comparator exactly
once on the two roots and stops; with a nonzero interval it runs the loop,
and each successful cycle is one full pass, then one `sleeping` notification
carrying exactly the interval, then the remaining cycles — for every number
of cycles, so the loop never stops on its own. -/
theorem claim_C8 (sp rp : List String) (src : FSObj) (ro : Option FSObj)
    (poll cycles : Nat) (rep rep1 : FSObj) (evs : List Event) :
    (mainRun sp rp (some src) ro 0 cycles = synchronize sp rp src (ro.getD (.dir []))) ∧
    (poll ≠ 0 → mainRun sp rp (some src) ro poll cycles =
      pollLoop sp rp src poll cycles (ro.getD (.dir []))) ∧
    (synchronize sp rp src rep = (evs, .ok rep1) →
      pollLoop sp rp src poll (cycles + 1) rep =
        (evs ++ Event.sleeping poll :: (pollLoop sp rp src poll cycles rep1).1,
         (pollLoop sp rp src poll cycles rep1).2)) :=
  ⟨mainRun_some_poll0 sp rp src ro cycles,
   fun hp => mainRun_some_pollPos sp rp src ro poll cycles hp,
   fun hpass => pollLoop_succ sp rp src poll cycles rep evs rep1 hpass⟩

/-- Concrete instance of claim C8 with interval 2. -/
theorem claim_C8_witness :
    ((2 : Nat) ≠ 0) ∧
    synchronize ["s"] ["r"] (.dir []) (.dir []) =
      ([Event.comparing ["r"] ["s"]], .ok (.dir [])) ∧
    (mainRun ["s"] ["r"] (some (.dir [])) none 0 1 =
      synchronize ["s"] ["r"] (.dir []) ((none : Option FSObj).getD (.dir []))) ∧
    (mainRun ["s"] ["r"] (some (.dir [])) none 2 1 =
      pollLoop ["s"] ["r"] (.dir []) 2 1 ((none : Option FSObj).getD (.dir []))) ∧
    pollLoop ["s"] ["r"] (.dir []) 2 (1 + 1) (.dir []) =
      ([Event.comparing ["r"] ["s"]] ++ Event.sleeping 2 ::
        (pollLoop ["s"] ["r"] (.dir []) 2 1 (.dir [])).1,
       (pollLoop ["s"] ["r"] (.dir []) 2 1 (.dir [])).2) := by
  have hp : (2 : Nat) ≠ 0 := by decide
  have hpass : synchronize ["s"] ["r"] (.dir []) (.dir []) =
      ([Event.comparing ["r"] ["s"]], .ok (.dir [])) := by
    simp [synchronize, syncEntries, removeDistinct, symmDiff, entryNames, entriesOf]
  have h := claim_C8 ["s"] ["r"] (.dir []) none 2 1 (.dir []) (.dir [])
    [Event.comparing ["r"] ["s"]]
  exact ⟨hp, hpass, h.1, h.2.1 hp, h.2.2 hpass⟩

/-- Claim C9: every mutating action of the driver and of the comparator —
each `removing`, `creating`, `adding` and `updating` event stands one-to-one
for the `rmtree`/`unlink`/`mkdir`/`copy` call at the same path — targets a
path strictly below the replica root; no mutating action ever targets the
source root or anything below it (the source tree is read-only throughout
the model). -/
theorem claim_C9 (sp rp : List String) (so ro : Option FSObj) (poll cycles : Nat) :
    ∀ e ∈ (mainRun sp rp so ro poll cycles).1, ∀ p, Event.mutPath e = some p →
      ∃ n q, p = rp ++ n :: q := by
  intro e he p hp
  cases so with
  | none => rw [mainRun_none] at he; simp at he
  | some src =>
    by_cases hpoll : poll = 0
    · subst hpoll
      rw [mainRun_some_poll0] at he
      exact synchronize_mut_events e he p hp
    · rw [mainRun_some_pollPos _ _ _ _ _ _ hpoll] at he
      exact pollLoop_mut_events cycles sp rp src _ poll e he p hp

/-- Concrete instance of claim C9: the removal of the stale replica entry
targets a path below the replica root. -/
theorem claim_C9_witness :
    Event.removing ["r", "a"] ∈
      (mainRun ["s"] ["r"] (some (.dir [])) (some (.dir [("a", .file [1])])) 0 0).1 ∧
    Event.mutPath (Event.removing ["r", "a"]) = some ["r", "a"] ∧
    ∃ n q, ["r", "a"] = ["r"] ++ n :: q := by
  have hmem : Event.removing ["r", "a"] ∈
      (mainRun ["s"] ["r"] (some (.dir [])) (some (.dir [("a", .file [1])])) 0 0).1 := by
    simp [mainRun, synchronize, syncEntries, removeDistinct, symmDiff, entryNames,
      entriesOf, lookupFS, lookupEntry, eraseChild, removeEntry]
  have hmp : Event.mutPath (Event.removing ["r", "a"]) = some ["r", "a"] := rfl
  exact ⟨hmem, hmp,
    claim_C9 ["s"] ["r"] (some (.dir [])) (some (.dir [("a", .file [1])])) 0 0
      (Event.removing ["r", "a"]) hmem ["r", "a"] hmp⟩

/-- Claim C10: the driver creates the replica root (an empty directory) only
when the replica path does not exist; an existing replica root is used as is
with no validation — even a plain file is passed straight to `synchronize`. -/
theorem claim_C10 (sp rp : List String) (src ro : FSObj) (cycles : Nat) :
    (mainRun sp rp (some src) none 0 cycles = synchronize sp rp src (.dir [])) ∧
    (mainRun sp rp (some src) (some ro) 0 cycles = synchronize sp rp src ro) :=
  ⟨mainRun_some_poll0 sp rp src none cycles,
   mainRun_some_poll0 sp rp src (some ro) cycles⟩

end FolderSync


